import Mathlib

/-!
Verification development for the `jsonablr` encoding engine
(`src/jsonablr/main.py`).

The development shallowly embeds the Python value universe the engine
operates on, the `Options` record, the encoder registries, and the
recursive dispatcher `JsonAblr._encode` / `JsonAblr.encode`, and proves
the specification claims about them.

Modelling conventions:
* Python values are the inductive `Value`.  Mappings are association
  lists in iteration (insertion) order; Python `dict` insertion
  semantics (update-in-place on key equality, else append) are modelled
  by `pyUpdate`.
* The mutable `JsonAblr` instance state is the pair of its construction
  options (`_options`) and the transient `_override_options`; the
  engine threads the override state explicitly, mirroring the source's
  assignments in `JsonAblr.encode`.
* The engine is defined with an explicit fuel parameter (`encodeN`) so
  that every definition is structurally recursive and kernel-reducible;
  `vsize` fuel is always sufficient (proved by the fuel-invariance
  lemma below), and the wrapper `runJsonAblr` supplies it.
* External collaborators are embedded faithfully from their documented
  behaviour: pydantic v1 `BaseModel.dict` (`pdFields`/`pdV`),
  `dataclasses.asdict` (`adV`), `pydantic.json.ENCODERS_BY_TYPE`, and
  CPython `datetime.astimezone`/`isoformat`.
-/

namespace Jsonablr

/-- A Python `datetime.datetime` value (timezone-aware: `tzOffsetMinutes`
is the fixed UTC offset of its `tzinfo`, in minutes). -/
structure PyDatetime where
  year : Nat
  month : Nat
  day : Nat
  hour : Nat
  minute : Nat
  second : Nat
  microsecond : Nat
  tzOffsetMinutes : Int
deriving DecidableEq, Repr

/-- The universe of Python runtime values the encoder can receive.
Mappings, sets and generators carry their iteration order as a list.
`vmodel` is a pydantic `BaseModel` instance: each field is
`(name, alias, value, field-was-explicitly-set, declared-default)`.
`vobj` is an opaque object carrying the outcome of the two fallback
coercions `dict(obj)` / `vars(obj)` (`none` = the coercion raises, with
the carried exception text). -/
inductive Value where
  | vnone
  | vbool (b : Bool)
  | vint (n : Int)
  | vfloat (x : Rat)
  | vstr (s : String)
  | vbytes (s : String)
  | vlist (xs : List Value)
  | vtuple (xs : List Value)
  | vgen (xs : List Value)
  | vset (xs : List Value)
  | vfrozenset (xs : List Value)
  | vdict (es : List (Value × Value))
  | vdatetime (d : PyDatetime)
  | vdate (y m d : Nat)
  | venum (payload : Value)
  | vpath (s : String)
  | vuuid (s : String)
  | vdecimal (mant : Int) (exp : Int)
  | vtimedelta (us : Int)
  | vmodel (fields : List (String × String × Value × Bool × Value))
  | vdataclass (fields : List (String × Value))
  | vobj (dictRes : Option (List (Value × Value)))
         (varsRes : Option (List (Value × Value)))
         (dictExc : String) (varsExc : String)

/-- Elementwise list comparison with a given value comparator. -/
def lbeqF (f : Value → Value → Bool) : List Value → List Value → Bool
  | [], [] => true
  | x :: xs, y :: ys => f x y && lbeqF f xs ys
  | _, _ => false

/-- Pairwise comparison of association-list entries. -/
def pbeqF (f : Value → Value → Bool) :
    List (Value × Value) → List (Value × Value) → Bool
  | [], [] => true
  | (k1, v1) :: xs, (k2, v2) :: ys => f k1 k2 && f v1 v2 && pbeqF f xs ys
  | _, _ => false

/-- Comparison of pydantic model field lists. -/
def fbeqF (f : Value → Value → Bool) :
    List (String × String × Value × Bool × Value) →
    List (String × String × Value × Bool × Value) → Bool
  | [], [] => true
  | (n1, a1, v1, s1, d1) :: xs, (n2, a2, v2, s2, d2) :: ys =>
      n1 == n2 && a1 == a2 && f v1 v2 && s1 == s2 && f d1 d2 && fbeqF f xs ys
  | _, _ => false

/-- Comparison of dataclass field lists. -/
def dbeqF (f : Value → Value → Bool) :
    List (String × Value) → List (String × Value) → Bool
  | [], [] => true
  | (n1, v1) :: xs, (n2, v2) :: ys => n1 == n2 && f v1 v2 && dbeqF f xs ys
  | _, _ => false

/-- Comparison of optional coercion outcomes. -/
def obeqF (f : Value → Value → Bool) :
    Option (List (Value × Value)) → Option (List (Value × Value)) → Bool
  | none, none => true
  | some es, some fs => pbeqF f es fs
  | _, _ => false

/-- Python `==` on embedded values (structural equality), with explicit
fuel so the definition is kernel-reducible; `vsize` fuel is always
sufficient (`vbeqN_iff`). -/
def vbeqN : Nat → Value → Value → Bool
  | 0, _, _ => false
  | n + 1, a, b =>
    match a with
    | .vnone => match b with | .vnone => true | _ => false
    | .vbool b1 => match b with | .vbool b2 => b1 == b2 | _ => false
    | .vint n1 => match b with | .vint n2 => n1 == n2 | _ => false
    | .vfloat x1 => match b with | .vfloat x2 => decide (x1 = x2) | _ => false
    | .vstr s1 => match b with | .vstr s2 => s1 == s2 | _ => false
    | .vbytes s1 => match b with | .vbytes s2 => s1 == s2 | _ => false
    | .vlist xs => match b with | .vlist ys => lbeqF (vbeqN n) xs ys | _ => false
    | .vtuple xs => match b with | .vtuple ys => lbeqF (vbeqN n) xs ys | _ => false
    | .vgen xs => match b with | .vgen ys => lbeqF (vbeqN n) xs ys | _ => false
    | .vset xs => match b with | .vset ys => lbeqF (vbeqN n) xs ys | _ => false
    | .vfrozenset xs => match b with | .vfrozenset ys => lbeqF (vbeqN n) xs ys | _ => false
    | .vdict es => match b with | .vdict fs => pbeqF (vbeqN n) es fs | _ => false
    | .vdatetime d1 => match b with | .vdatetime d2 => decide (d1 = d2) | _ => false
    | .vdate y1 m1 d1 =>
        match b with | .vdate y2 m2 d2 => y1 == y2 && m1 == m2 && d1 == d2 | _ => false
    | .venum p1 => match b with | .venum p2 => vbeqN n p1 p2 | _ => false
    | .vpath s1 => match b with | .vpath s2 => s1 == s2 | _ => false
    | .vuuid s1 => match b with | .vuuid s2 => s1 == s2 | _ => false
    | .vdecimal m1 e1 =>
        match b with | .vdecimal m2 e2 => m1 == m2 && e1 == e2 | _ => false
    | .vtimedelta u1 => match b with | .vtimedelta u2 => u1 == u2 | _ => false
    | .vmodel fs1 => match b with | .vmodel fs2 => fbeqF (vbeqN n) fs1 fs2 | _ => false
    | .vdataclass fs1 =>
        match b with | .vdataclass fs2 => dbeqF (vbeqN n) fs1 fs2 | _ => false
    | .vobj d1 v1 de1 ve1 =>
        match b with
        | .vobj d2 v2 de2 ve2 =>
            obeqF (vbeqN n) d1 d2 && obeqF (vbeqN n) v1 v2 && de1 == de2 && ve1 == ve2
        | _ => false

mutual

/-- Structural size of a value; the fuel measure of the engine. -/
def vsize : Value → Nat
  | .vnone | .vbool _ | .vint _ | .vfloat _ | .vstr _ | .vbytes _ => 1
  | .vlist xs | .vtuple xs | .vgen xs | .vset xs | .vfrozenset xs => 1 + lsize xs
  | .vdict es => 1 + psize es
  | .vdatetime _ | .vdate _ _ _ | .vpath _ | .vuuid _
  | .vdecimal _ _ | .vtimedelta _ => 1
  | .venum p => 1 + vsize p
  | .vmodel fs => 3 + fsize fs
  | .vdataclass fs => 2 + dsize fs
  | .vobj dr vr _ _ => 1 + osize dr + osize vr

def lsize : List Value → Nat
  | [] => 0
  | x :: t => vsize x + lsize t

def psize : List (Value × Value) → Nat
  | [] => 0
  | (k, v) :: t => vsize k + vsize v + psize t

def fsize : List (String × String × Value × Bool × Value) → Nat
  | [] => 0
  | (_, _, v, _, d) :: t => 1 + vsize v + vsize d + fsize t

def dsize : List (String × Value) → Nat
  | [] => 0
  | (_, v) :: t => 1 + vsize v + dsize t

def osize : Option (List (Value × Value)) → Nat
  | none => 0
  | some es => psize es

end

theorem vsize_pos : ∀ v : Value, 1 ≤ vsize v := by
  intro v
  cases v <;> simp [vsize] <;> try omega

theorem lsize_mem {x : Value} : ∀ {xs : List Value}, x ∈ xs → vsize x ≤ lsize xs := by
  intro xs hx
  induction xs with
  | nil => cases hx
  | cons y ys ih =>
      rcases List.mem_cons.mp hx with h | h
      · subst h; simp [lsize]
      · have := ih h; simp [lsize]; omega

theorem psize_mem_key {k v : Value} : ∀ {es : List (Value × Value)},
    (k, v) ∈ es → vsize k ≤ psize es := by
  intro es hx
  induction es with
  | nil => cases hx
  | cons e t ih =>
      rcases List.mem_cons.mp hx with h | h
      · subst h; simp [psize]; omega
      · have := ih h
        rcases e with ⟨ek, ev⟩
        simp [psize]; omega

theorem psize_mem_val {k v : Value} : ∀ {es : List (Value × Value)},
    (k, v) ∈ es → vsize v ≤ psize es := by
  intro es hx
  induction es with
  | nil => cases hx
  | cons e t ih =>
      rcases List.mem_cons.mp hx with h | h
      · subst h; simp [psize]; omega
      · have := ih h
        rcases e with ⟨ek, ev⟩
        simp [psize]; omega

/-! ## Soundness of the fueled value equality -/

theorem lbeqF_sound {f : Value → Value → Bool} {n : Nat}
    (hf : ∀ x y, vsize x ≤ n → (f x y = true ↔ x = y)) :
    ∀ (xs ys : List Value), lsize xs ≤ n → (lbeqF f xs ys = true ↔ xs = ys) := by
  intro xs
  induction xs with
  | nil => intro ys h; cases ys <;> simp [lbeqF]
  | cons x xs ih =>
      intro ys h
      cases ys with
      | nil => simp [lbeqF]
      | cons y ys2 =>
          have hx : vsize x ≤ n := by simp [lsize] at h; omega
          have ht : lsize xs ≤ n := by simp [lsize] at h; omega
          simp [lbeqF, hf x y hx, ih ys2 ht]

theorem pbeqF_sound {f : Value → Value → Bool} {n : Nat}
    (hf : ∀ x y, vsize x ≤ n → (f x y = true ↔ x = y)) :
    ∀ (es fs : List (Value × Value)), psize es ≤ n →
      (pbeqF f es fs = true ↔ es = fs) := by
  intro es
  induction es with
  | nil => intro fs h; cases fs <;> simp [pbeqF]
  | cons e es ih =>
      intro fs h
      rcases e with ⟨k1, v1⟩
      cases fs with
      | nil => simp [pbeqF]
      | cons e2 fs2 =>
          rcases e2 with ⟨k2, v2⟩
          have hk : vsize k1 ≤ n := by simp [psize] at h; omega
          have hv : vsize v1 ≤ n := by simp [psize] at h; omega
          have ht : psize es ≤ n := by simp [psize] at h; omega
          simp [pbeqF, hf k1 k2 hk, hf v1 v2 hv, ih fs2 ht, and_assoc]

theorem fbeqF_sound {f : Value → Value → Bool} {n : Nat}
    (hf : ∀ x y, vsize x ≤ n → (f x y = true ↔ x = y)) :
    ∀ (es fs : List (String × String × Value × Bool × Value)), fsize es ≤ n →
      (fbeqF f es fs = true ↔ es = fs) := by
  intro es
  induction es with
  | nil => intro fs h; cases fs <;> simp [fbeqF]
  | cons e es ih =>
      intro fs h
      rcases e with ⟨n1, a1, v1, s1, d1⟩
      cases fs with
      | nil => simp [fbeqF]
      | cons e2 fs2 =>
          rcases e2 with ⟨n2, a2, v2, s2, d2⟩
          have hv : vsize v1 ≤ n := by simp [fsize] at h; omega
          have hd : vsize d1 ≤ n := by simp [fsize] at h; omega
          have ht : fsize es ≤ n := by simp [fsize] at h; omega
          simp [fbeqF, hf v1 v2 hv, hf d1 d2 hd, ih fs2 ht, and_assoc]

theorem dbeqF_sound {f : Value → Value → Bool} {n : Nat}
    (hf : ∀ x y, vsize x ≤ n → (f x y = true ↔ x = y)) :
    ∀ (es fs : List (String × Value)), dsize es ≤ n →
      (dbeqF f es fs = true ↔ es = fs) := by
  intro es
  induction es with
  | nil => intro fs h; cases fs <;> simp [dbeqF]
  | cons e es ih =>
      intro fs h
      rcases e with ⟨n1, v1⟩
      cases fs with
      | nil => simp [dbeqF]
      | cons e2 fs2 =>
          rcases e2 with ⟨n2, v2⟩
          have hv : vsize v1 ≤ n := by simp [dsize] at h; omega
          have ht : dsize es ≤ n := by simp [dsize] at h; omega
          simp [dbeqF, hf v1 v2 hv, ih fs2 ht, and_assoc]

theorem obeqF_sound {f : Value → Value → Bool} {n : Nat}
    (hf : ∀ x y, vsize x ≤ n → (f x y = true ↔ x = y)) :
    ∀ (o1 o2 : Option (List (Value × Value))), osize o1 ≤ n →
      (obeqF f o1 o2 = true ↔ o1 = o2) := by
  intro o1 o2 h
  cases o1 with
  | none => cases o2 <;> simp [obeqF]
  | some es =>
      cases o2 with
      | none => simp [obeqF]
      | some fs =>
          simp only [osize] at h
          simp [obeqF, pbeqF_sound hf es fs h]

theorem vbeqN_iff : ∀ (n : Nat) (a b : Value), vsize a ≤ n →
    (vbeqN n a b = true ↔ a = b) := by
  intro n
  induction n with
  | zero =>
      intro a b ha
      exact absurd ha (by have := vsize_pos a; omega)
  | succ n ih =>
      intro a b ha
      cases a with
      | vnone => cases b <;> simp [vbeqN]
      | vbool b1 => cases b <;> simp [vbeqN]
      | vint n1 => cases b <;> simp [vbeqN]
      | vfloat x1 => cases b <;> simp [vbeqN]
      | vstr s1 => cases b <;> simp [vbeqN]
      | vbytes s1 => cases b <;> simp [vbeqN]
      | vlist xs =>
          simp only [vsize] at ha
          cases b <;> simp [vbeqN]
          exact lbeqF_sound ih xs _ (by omega)
      | vtuple xs =>
          simp only [vsize] at ha
          cases b <;> simp [vbeqN]
          exact lbeqF_sound ih xs _ (by omega)
      | vgen xs =>
          simp only [vsize] at ha
          cases b <;> simp [vbeqN]
          exact lbeqF_sound ih xs _ (by omega)
      | vset xs =>
          simp only [vsize] at ha
          cases b <;> simp [vbeqN]
          exact lbeqF_sound ih xs _ (by omega)
      | vfrozenset xs =>
          simp only [vsize] at ha
          cases b <;> simp [vbeqN]
          exact lbeqF_sound ih xs _ (by omega)
      | vdict es =>
          simp only [vsize] at ha
          cases b <;> simp [vbeqN]
          exact pbeqF_sound ih es _ (by omega)
      | vdatetime d1 => cases b <;> simp [vbeqN]
      | vdate y1 m1 d1 => cases b <;> simp [vbeqN, and_assoc]
      | venum p =>
          simp only [vsize] at ha
          cases b <;> simp [vbeqN]
          exact ih p _ (by omega)
      | vpath s1 => cases b <;> simp [vbeqN]
      | vuuid s1 => cases b <;> simp [vbeqN]
      | vdecimal m1 e1 => cases b <;> simp [vbeqN]
      | vtimedelta u1 => cases b <;> simp [vbeqN]
      | vmodel fs =>
          simp only [vsize] at ha
          cases b <;> simp [vbeqN]
          exact fbeqF_sound ih fs _ (by omega)
      | vdataclass fs =>
          simp only [vsize] at ha
          cases b <;> simp [vbeqN]
          exact dbeqF_sound ih fs _ (by omega)
      | vobj d1 v1 de1 ve1 =>
          simp only [vsize] at ha
          cases b <;> simp [vbeqN, and_assoc]
          rename_i d2 v2 de2 ve2
          rw [obeqF_sound ih d1 d2 (by omega), obeqF_sound ih v1 v2 (by omega)]

/-- Python `==` on embedded values (structural equality). -/
def vbeq (a b : Value) : Bool := vbeqN (vsize a) a b

theorem vbeq_iff (a b : Value) : vbeq a b = true ↔ a = b :=
  vbeqN_iff (vsize a) a b (le_refl _)

instance : DecidableEq Value := fun a b => decidable_of_iff _ (vbeq_iff a b)

instance : BEq Value := ⟨vbeq⟩

theorem Value.beq_iff (a b : Value) : (a == b) = true ↔ a = b := vbeq_iff a b

instance : LawfulBEq Value :=
  ⟨fun {a b} h => (vbeq_iff a b).1 h, fun {a} => (vbeq_iff a a).2 rfl⟩

/-! ## Python runtime types and isinstance -/

/-- Python runtime types relevant to the dispatcher. -/
inductive PyType where
  | noneT | boolT | intT | floatT | strT | bytesT
  | listT | tupleT | genT | setT | frozensetT | dictT
  | datetimeT | dateT | enumT | pathT | uuidT | decimalT | timedeltaT
  | modelT | dataclassT | objT
deriving DecidableEq, Repr

/-- `type(obj)` of an embedded value. -/
def typeOf : Value → PyType
  | .vnone => .noneT
  | .vbool _ => .boolT
  | .vint _ => .intT
  | .vfloat _ => .floatT
  | .vstr _ => .strT
  | .vbytes _ => .bytesT
  | .vlist _ => .listT
  | .vtuple _ => .tupleT
  | .vgen _ => .genT
  | .vset _ => .setT
  | .vfrozenset _ => .frozensetT
  | .vdict _ => .dictT
  | .vdatetime _ => .datetimeT
  | .vdate _ _ _ => .dateT
  | .venum _ => .enumT
  | .vpath _ => .pathT
  | .vuuid _ => .uuidT
  | .vdecimal _ _ => .decimalT
  | .vtimedelta _ => .timedeltaT
  | .vmodel _ => .modelT
  | .vdataclass _ => .dataclassT
  | .vobj _ _ _ _ => .objT

/-- Python `isinstance`.  Exact type match, plus the standard-library
subclass facts that affect the encoder: `bool` is a subclass of `int`
and `datetime` is a subclass of `date`. -/
def isinst (v : Value) (t : PyType) : Bool :=
  typeOf v == t ||
    (match v, t with
     | .vbool _, .intT => true
     | .vdatetime _, .dateT => true
     | _, _ => false)

/-! ## Datetime rendering (CPython `datetime` behaviour) -/

/-- Fixed-width two-digit decimal rendering (CPython `%02d` for
in-range values). -/
def pad2 (n : Nat) : String := ⟨[Nat.digitChar (n / 10 % 10), Nat.digitChar (n % 10)]⟩

/-- Fixed-width three-digit decimal rendering. -/
def pad3 (n : Nat) : String :=
  ⟨[Nat.digitChar (n / 100 % 10), Nat.digitChar (n / 10 % 10), Nat.digitChar (n % 10)]⟩

/-- Fixed-width four-digit decimal rendering. -/
def pad4 (n : Nat) : String :=
  ⟨[Nat.digitChar (n / 1000 % 10), Nat.digitChar (n / 100 % 10),
    Nat.digitChar (n / 10 % 10), Nat.digitChar (n % 10)]⟩

/-- Fixed-width six-digit decimal rendering (microseconds). -/
def pad6 (n : Nat) : String := pad3 (n / 1000) ++ pad3 (n % 1000)

/-- The `±HH:MM` UTC-offset suffix `datetime.isoformat` appends to an
aware datetime. -/
def offsetStr (off : Int) : String :=
  if off < 0 then "-" ++ pad2 ((-off).toNat / 60) ++ ":" ++ pad2 ((-off).toNat % 60)
  else "+" ++ pad2 (off.toNat / 60) ++ ":" ++ pad2 (off.toNat % 60)

/-- Linear day number of a Gregorian civil date (days since 0000-03-01),
for years ≥ 1. -/
def daysFromCivil (y m d : Nat) : Nat :=
  let y1 := if m ≤ 2 then y - 1 else y
  let era := y1 / 400
  let yoe := y1 % 400
  let mp := if m > 2 then m - 3 else m + 9
  let doy := (153 * mp + 2) / 5 + d - 1
  let doe := yoe * 365 + yoe / 4 - yoe / 100 + doy
  era * 146097 + doe

/-- Civil date from a linear day number; inverse of `daysFromCivil`. -/
def civilFromDays (z : Nat) : Nat × Nat × Nat :=
  let era := z / 146097
  let doe := z % 146097
  let yoe := (doe - doe / 1461 + doe / 36524 - doe / 146096) / 365
  let doy := doe - (365 * yoe + yoe / 4 - yoe / 100)
  let mp := (5 * doy + 2) / 153
  let d := doy - (153 * mp + 2) / 5 + 1
  let m := if mp < 10 then mp + 3 else mp - 9
  (yoe + era * 400 + (if m ≤ 2 then 1 else 0), m, d)

/-- Minute-resolution timeline position of an aware datetime (UTC). -/
def utcMinutes (dt : PyDatetime) : Int :=
  (daysFromCivil dt.year dt.month dt.day : Int) * 1440 +
    dt.hour * 60 + dt.minute - dt.tzOffsetMinutes

/-- `dt.astimezone(tz=timezone.utc)`: same instant, UTC components,
offset zero.  Seconds and microseconds are unchanged because fixed
offsets are whole minutes. -/
def astimezone_utc (dt : PyDatetime) : PyDatetime :=
  let t := (utcMinutes dt).toNat
  let ymd := civilFromDays (t / 1440)
  { year := ymd.1, month := ymd.2.1, day := ymd.2.2,
    hour := t % 1440 / 60, minute := t % 60,
    second := dt.second, microsecond := dt.microsecond,
    tzOffsetMinutes := 0 }

/-- `dt.isoformat(sep='T', timespec='milliseconds')` for an aware
datetime: `YYYY-MM-DDTHH:MM:SS.mmm±HH:MM`. -/
def isoformat_milliseconds (dt : PyDatetime) : String :=
  pad4 dt.year ++ "-" ++ pad2 dt.month ++ "-" ++ pad2 dt.day ++ "T" ++
    pad2 dt.hour ++ ":" ++ pad2 dt.minute ++ ":" ++ pad2 dt.second ++ "." ++
    pad3 (dt.microsecond / 1000) ++ offsetStr dt.tzOffsetMinutes

/-- `dt.isoformat()` with the default `timespec='auto'` (microseconds
printed only when nonzero); the entry pydantic's encoder table uses. -/
def isoformat_auto (dt : PyDatetime) : String :=
  pad4 dt.year ++ "-" ++ pad2 dt.month ++ "-" ++ pad2 dt.day ++ "T" ++
    pad2 dt.hour ++ ":" ++ pad2 dt.minute ++ ":" ++ pad2 dt.second ++
    (if dt.microsecond = 0 then "" else "." ++ pad6 dt.microsecond) ++
    offsetStr dt.tzOffsetMinutes

/-- `str(date)` = `date.isoformat()` = `YYYY-MM-DD`. -/
def date_isoformat (y m d : Nat) : String :=
  pad4 y ++ "-" ++ pad2 m ++ "-" ++ pad2 d

/-- The Python slice `s[:-n]` (all but the last `n` characters). -/
def pySliceDropLast (s : String) (n : Nat) : String :=
  ⟨s.data.take (s.data.length - n)⟩

/-- `datetime_encoder` (main.py lines 15-20): convert to UTC, render at
millisecond precision, replace the `+00:00` suffix by `Z`. -/
def datetime_encoder (dateval : PyDatetime) : String :=
  let datestr := isoformat_milliseconds (astimezone_utc dateval)
  pySliceDropLast datestr 6 ++ "Z"

/-! ## Encoder registries -/

/-- A registered encoder function. -/
abbrev EncFun := Value → Value

/-- A Python dict from runtime type to encoder function, in insertion
order. -/
abbrev Encoders := List (PyType × EncFun)

/-- Python `str` applied as an encoder function (used for `date` in
`default_encoders`; also models the `str` entries of pydantic's
table). -/
def pyStr : EncFun := fun v =>
  match v with
  | .vdate y m d => .vstr (date_isoformat y m d)
  | .vpath s => .vstr s
  | .vuuid s => .vstr s
  | .vstr s => .vstr s
  | v => v

/-- `default_encoders` (main.py lines 23-26). -/
def default_encoders : Encoders :=
  [(.datetimeT, fun v => match v with | .vdatetime d => .vstr (datetime_encoder d) | v => v),
   (.dateT, pyStr)]

/-- Python dict item assignment `d[key] = val`: update the value in
place when the key is present, else append. -/
def pyUpdate {κ α : Type} [BEq κ] : List (κ × α) → κ → α → List (κ × α)
  | [], k, v => [(k, v)]
  | (k0, v0) :: t, k, v =>
      if k0 == k then (k0, v) :: t else (k0, v0) :: pyUpdate t k v

/-- Python dict merge `{**d1, **d2}`. -/
def pyMerge {κ α : Type} [BEq κ] (d1 d2 : List (κ × α)) : List (κ × α) :=
  d2.foldl (fun acc kv => pyUpdate acc kv.1 kv.2) d1

/-- `JsonAblr.get_encoder` (main.py lines 151-159): exact runtime-type
lookup first, then the first `isinstance` match in insertion order. -/
def get_encoder (encoders : Encoders) (obj : Value) : Option EncFun :=
  if encoders.isEmpty then none
  else
    match encoders.find? (fun te => te.1 == typeOf obj) with
    | some te => some te.2
    | none => (encoders.find? (fun te => isinst obj te.1)).map (fun te => te.2)

/-! ## pydantic's built-in encoder table -/

/-- The encoder functions appearing in `pydantic.json.ENCODERS_BY_TYPE`
(the ones relevant to this value universe), as comparable tags. -/
inductive PydEnc where
  | decodeBytes | isoformatE | totalSecondsE | decimalE | enumValueE | toListE | toStrE
deriving DecidableEq, Repr

/-- Apply a pydantic built-in encoder. -/
def applyPydEnc : PydEnc → Value → Value
  | .decodeBytes, .vbytes s => .vstr s
  | .isoformatE, .vdatetime d => .vstr (isoformat_auto d)
  | .isoformatE, .vdate y m d => .vstr (date_isoformat y m d)
  | .totalSecondsE, .vtimedelta us => .vfloat ((us : Rat) / 1000000)
  | .decimalE, .vdecimal mant e =>
      if 0 ≤ e then .vint (mant * (10 : Int) ^ e.toNat)
      else .vfloat ((mant : Rat) / ((10 : Rat) ^ (-e).toNat))
  | .enumValueE, .venum p => p
  | .toListE, .vset xs => .vlist xs
  | .toListE, .vfrozenset xs => .vlist xs
  | .toListE, .vgen xs => .vlist xs
  | .toStrE, .vuuid s => .vstr s
  | .toStrE, .vpath s => .vstr s
  | _, v => v

/-- `pydantic.json.ENCODERS_BY_TYPE`, restricted to this value
universe, in the pydantic v1 source's insertion order. -/
def ENCODERS_BY_TYPE : List (PyType × PydEnc) :=
  [(.bytesT, .decodeBytes),
   (.dateT, .isoformatE),
   (.datetimeT, .isoformatE),
   (.timedeltaT, .totalSecondsE),
   (.decimalT, .decimalE),
   (.enumT, .enumValueE),
   (.frozensetT, .toListE),
   (.genT, .toListE),
   (.pathT, .toStrE),
   (.setT, .toListE),
   (.uuidT, .toStrE)]

/-- `encoder_map` (main.py lines 67-70): the reverse encoder-to-types
index, built with `setdefault`/append semantics. -/
def encoder_map : List (PydEnc × List PyType) :=
  ENCODERS_BY_TYPE.foldl
    (fun acc te =>
      match acc.find? (fun g => g.1 == te.2) with
      | some g => pyUpdate acc te.2 (g.2 ++ [te.1])
      | none => acc ++ [(te.2, [te.1])])
    []

/-! ## Errors -/

/-- Errors the engine can raise (plus fuel exhaustion, which is never
reached at `vsize` fuel). -/
inductive EncodeError where
  | fuelOut
  | valueError (excs : List String)
  | typeError (msg : String)
  | validationError (msg : String)
deriving DecidableEq, Repr

/-- `JsonAblr._encode` lines 130-149: the tail of the dispatch chain
for values matching none of the earlier rules — exact
`ENCODERS_BY_TYPE` lookup, then the first `isinstance` match over
`encoder_map`, then the `dict(obj)` / `vars(obj)` fallback, which
returns the coerced mapping as-is or raises `ValueError` carrying both
exceptions. -/
def tail_encode (obj : Value) : Except EncodeError Value :=
  match ENCODERS_BY_TYPE.find? (fun te => te.1 == typeOf obj) with
  | some te => .ok (applyPydEnc te.2 obj)
  | none =>
    match encoder_map.find? (fun g => g.2.any (fun t => isinst obj t)) with
    | some g => .ok (applyPydEnc g.1 obj)
    | none =>
      match obj with
      | .vobj dictRes varsRes dictExc varsExc =>
          match dictRes with
          | some data => .ok (.vdict data)
          | none =>
              match varsRes with
              | some data => .ok (.vdict data)
              | none => .error (.valueError [dictExc, varsExc])
      | _ => .error (.typeError "not convertible to dict")

/-! ## Options -/

/-- The `Options` pydantic model (main.py lines 33-41), with its
declared defaults.  `include`/`exclude` are modelled in their flat
set-of-keys form (the only form the engine's own filtering consumes).
The field `include'` models the source's `include` (a Lean keyword). -/
structure Options where
  include' : Option (List Value) := none
  exclude : Option (List Value) := none
  by_alias : Bool := true
  exclude_unset : Bool := false
  exclude_none : Bool := false
  exclude_defaults : Bool := false
  sqlalchemy_safe : Bool := true
  preserve_set : Bool := false
deriving DecidableEq

/-- A keyword-argument value passed to `encode`. -/
inductive OptVal where
  | ob (b : Bool)
  | okeys (ks : List Value)
  | onull
deriving DecidableEq

/-- One keyword of `Options.parse_obj`: recognized keys set the
corresponding field (wrong shapes raise a validation error); any other
key is silently skipped (pydantic's default `Extra.ignore`). -/
def parseStep (o : Options) (kv : String × OptVal) : Except EncodeError Options :=
  match kv with
  | ("include", .okeys ks) => .ok { o with include' := some ks }
  | ("include", .onull) => .ok { o with include' := none }
  | ("include", _) => .error (.validationError "include")
  | ("exclude", .okeys ks) => .ok { o with exclude := some ks }
  | ("exclude", .onull) => .ok { o with exclude := none }
  | ("exclude", _) => .error (.validationError "exclude")
  | ("by_alias", .ob b) => .ok { o with by_alias := b }
  | ("by_alias", _) => .error (.validationError "by_alias")
  | ("exclude_unset", .ob b) => .ok { o with exclude_unset := b }
  | ("exclude_unset", _) => .error (.validationError "exclude_unset")
  | ("exclude_none", .ob b) => .ok { o with exclude_none := b }
  | ("exclude_none", _) => .error (.validationError "exclude_none")
  | ("exclude_defaults", .ob b) => .ok { o with exclude_defaults := b }
  | ("exclude_defaults", _) => .error (.validationError "exclude_defaults")
  | ("sqlalchemy_safe", .ob b) => .ok { o with sqlalchemy_safe := b }
  | ("sqlalchemy_safe", _) => .error (.validationError "sqlalchemy_safe")
  | ("preserve_set", .ob b) => .ok { o with preserve_set := b }
  | ("preserve_set", _) => .error (.validationError "preserve_set")
  | _ => .ok o

/-- `Options.parse_obj` on a keyword dict: fold `parseStep` over the
keywords starting from the declared defaults. -/
def Options.parse_obj (kwargs : List (String × OptVal)) : Except EncodeError Options :=
  kwargs.foldlM parseStep {}

/-- The narrowed options `handle_pydantic_model` constructs for the
recursive encoding of the extracted field mapping (main.py lines
177-185): only `exclude_none`, `exclude_defaults`, `sqlalchemy_safe`,
`preserve_set` are carried; everything else is the `Options` default. -/
def model_narrow (o : Options) : Options :=
  { exclude_none := o.exclude_none, exclude_defaults := o.exclude_defaults,
    sqlalchemy_safe := o.sqlalchemy_safe, preserve_set := o.preserve_set }

/-- The narrowed options `handle_dict` constructs for encoding keys and
values (main.py lines 202-214): `include`/`exclude` are dropped, all
other flags carried. -/
def dict_narrow (o : Options) : Options :=
  { o with include' := none, exclude := none }

/-! ## pydantic v1 `BaseModel.dict` -/

/-- The four flags pydantic v1 `BaseModel.dict` applies recursively to
nested models (flat `include`/`exclude` act on the top level only). -/
structure PdOpts where
  by_alias : Bool
  exclude_unset : Bool
  exclude_none : Bool
  exclude_defaults : Bool
deriving DecidableEq, Repr

/-- The six arguments `handle_pydantic_model` passes to `obj.dict`
(main.py lines 163-170), minus the level-local `include`/`exclude`. -/
def pd_opts (o : Options) : PdOpts :=
  ⟨o.by_alias, o.exclude_unset, o.exclude_none, o.exclude_defaults⟩

mutual

/-- pydantic v1 `BaseModel.dict`: per-field filtering (unset → include
→ exclude → defaults → conversion → none-dropping → alias naming), with
nested models converted recursively (without `include`/`exclude`). -/
def pdFields (inc exc : Option (List Value)) (po : PdOpts) :
    List (String × String × Value × Bool × Value) → List (Value × Value)
  | [] => []
  | (name, al, v, isSet, dflt) :: rest =>
      let tail := pdFields inc exc po rest
      if po.exclude_unset && !isSet then tail
      else if (match inc with
               | some ks => !(ks.any (fun k => k == Value.vstr name))
               | none => false) then tail
      else if (match exc with
               | some ks => ks.any (fun k => k == Value.vstr name)
               | none => false) then tail
      else if po.exclude_defaults && vbeq v dflt then tail
      else
        let v2 := pdV po v
        if po.exclude_none && vbeq v2 .vnone then tail
        else (.vstr (if po.by_alias then al else name), v2) :: tail

/-- pydantic v1 recursive value conversion inside `.dict()`: nested
models become dicts; containers are mapped; leaves (datetimes, enums,
arbitrary objects, ...) are kept as-is. -/
def pdV (po : PdOpts) : Value → Value
  | .vmodel fs => .vdict (pdFields none none po fs)
  | .vlist xs => .vlist (pdL po xs)
  | .vtuple xs => .vtuple (pdL po xs)
  | .vgen xs => .vgen (pdL po xs)
  | .vset xs => .vset (pdL po xs)
  | .vfrozenset xs => .vfrozenset (pdL po xs)
  | .vdict es => .vdict (pdP po es)
  | v => v

def pdL (po : PdOpts) : List Value → List Value
  | [] => []
  | x :: t => pdV po x :: pdL po t

def pdP (po : PdOpts) : List (Value × Value) → List (Value × Value)
  | [] => []
  | (k, v) :: t => (pdV po k, pdV po v) :: pdP po t

end

/-- `if '__root__' in obj_dict: obj_dict = obj_dict['__root__']`
(main.py lines 174-175). -/
def rootExtract (es : List (Value × Value)) : Value :=
  match es.find? (fun kv => kv.1 == Value.vstr "__root__") with
  | some kv => kv.2
  | none => .vdict es

/-! ## `dataclasses.asdict` -/

mutual

/-- `dataclasses.asdict`: dataclasses become dicts recursively;
lists/tuples/dicts are rebuilt; everything else is deep-copied
(identity in value semantics). -/
def adV : Value → Value
  | .vdataclass fs => .vdict (adFields fs)
  | .vlist xs => .vlist (adL xs)
  | .vtuple xs => .vtuple (adL xs)
  | .vdict es => .vdict (adP es)
  | v => v

def adFields : List (String × Value) → List (Value × Value)
  | [] => []
  | (n, v) :: t => (.vstr n, adV v) :: adFields t

def adL : List Value → List Value
  | [] => []
  | x :: t => adV x :: adL t

def adP : List (Value × Value) → List (Value × Value)
  | [] => []
  | (k, v) :: t => (adV k, adV v) :: adP t

end

/-! ## The engine -/

/-- `isinstance(key, str) and key.startswith('_sa')` (main.py line 221),
decided on the character sequence. -/
def isSaStr : Value → Bool
  | .vstr s =>
      match s.data with
      | '_' :: 's' :: 'a' :: _ => true
      | _ => false
  | _ => false

/-- Encoded values that cannot be dict keys or set members
(unhashable). -/
def unhashable : Value → Bool
  | .vdict _ => true
  | .vlist _ => true
  | .vset _ => true
  | _ => false

/-- The `handle_dict` loop (main.py lines 216-224): skip keys outside
the allowed set, null values under `exclude_none`, and `_sa`-prefixed
string keys under `sqlalchemy_safe`; encode the value then the key with
the narrowed child encoder (Python evaluates the assignment's
right-hand side first) and insert with Python dict semantics (an
unhashable encoded key raises `TypeError`). -/
def dictLoop (f : Value → Except EncodeError Value) (eff : Options)
    (allowed : Value → Bool) (acc : List (Value × Value)) :
    List (Value × Value) → Except EncodeError (List (Value × Value))
  | [] => .ok acc
  | (key, v) :: rest =>
      if !(allowed key) then dictLoop f eff allowed acc rest
      else if vbeq v .vnone && eff.exclude_none then dictLoop f eff allowed acc rest
      else if eff.sqlalchemy_safe && isSaStr key then dictLoop f eff allowed acc rest
      else
        match f v with
        | .error e => .error e
        | .ok ev =>
            match f key with
            | .error e => .error e
            | .ok ek =>
                if unhashable ek then .error (.typeError "unhashable type")
                else dictLoop f eff allowed (pyUpdate acc ek ev) rest

/-- The `handle_list_type` loop (main.py lines 226-230): encode each
element through `self(item)`, threading the instance's override
state. -/
def listLoop (f : Option Options → Value → Except EncodeError Value × Option Options) :
    Option Options → List Value → Except EncodeError (List Value) × Option Options
  | st, [] => (.ok [], st)
  | st, x :: xs =>
      match f st x with
      | (.ok r, st1) =>
          match listLoop f st1 xs with
          | (.ok rs, st2) => (.ok (r :: rs), st2)
          | (.error e, st2) => (.error e, st2)
      | (.error e, st1) => (.error e, st1)

/-- Python `set.add`: no-op when an equal element is present, else
insert (insertion order modelled). -/
def pySetAdd (acc : List Value) (x : Value) : List Value :=
  if acc.any (fun y => vbeq y x) then acc else acc ++ [x]

/-- The `handle_set` loop (main.py lines 232-236): encode each element
through `self(item)` and add it to a Python set; adding an unhashable
encoded element raises `TypeError`. -/
def setLoop (f : Option Options → Value → Except EncodeError Value × Option Options) :
    Option Options → List Value → List Value →
    Except EncodeError (List Value) × Option Options
  | st, acc, [] => (.ok acc, st)
  | st, acc, x :: xs =>
      match f st x with
      | (.ok r, st1) =>
          if unhashable r then (.error (.typeError "unhashable type"), st1)
          else setLoop f st1 (pySetAdd acc r) xs
      | (.error e, st1) => (.error e, st1)

/-- The tail of `JsonAblr.encode` (main.py lines 96-98): on normal
return the instance's `_override_options` is reset to `None`; when the
call raises, the reset is skipped and the state is left as-is. -/
def resetOnOk : Except EncodeError Value × Option Options →
    Except EncodeError Value × Option Options
  | (.ok r, _) => (.ok r, none)
  | (.error e, st) => (.error e, st)

/-- Package the outcome of the `handle_dict` loop (returning the built
dict, propagating errors, instance state untouched). -/
def wrapDict (ov1 : Option Options) :
    Except EncodeError (List (Value × Value)) → Except EncodeError Value × Option Options
  | .ok out => (.ok (.vdict out), ov1)
  | .error e => (.error e, ov1)

/-- Package the outcome of the list/set loops (collect into the given
container, propagating errors and the threaded instance state). -/
def wrapSeq (mk : List Value → Value) :
    Except EncodeError (List Value) × Option Options →
    Except EncodeError Value × Option Options
  | (.ok out, st2) => (.ok (mk out), st2)
  | (.error e, st2) => (.error e, st2)

/-- `JsonAblr.encode` (main.py lines 93-98) together with the dispatch
body `JsonAblr._encode` (lines 100-149) and the per-shape handlers,
with explicit fuel (first argument; `vsize` fuel always suffices).
Remaining arguments: the instance's `self.encoders`, its `_options`,
its current `_override_options`, the call's `**options` (`none` = no
keyword options were passed), and the value.  Returns the call's
outcome together with the instance's `_override_options` after the
call: the source resets it to `None` on return (line 97) but not when
an exception propagates. -/
def encodeN : Nat → Encoders → Options → Option Options → Option Options → Value →
    Except EncodeError Value × Option Options
  | 0, _, _, ov, oa, _ =>
      (.error .fuelOut, match oa with | some o => some o | none => ov)
  | n + 1, E, base, ov, oa, v =>
      let ov1 : Option Options := match oa with | some o => some o | none => ov
      let eff : Options := ov1.getD base
      let res : Except EncodeError Value × Option Options :=
        match get_encoder E v with
        | some f => (.ok (f v), ov1)
        | none =>
          match v with
          | .vmodel fs =>
              let obj_dict := pdFields eff.include' eff.exclude (pd_opts eff) fs
              let obj2 := rootExtract obj_dict
              let childE := pyMerge default_encoders E
              ((encodeN n childE (model_narrow eff) none none obj2).1, ov1)
          | .vdataclass fs =>
              encodeN n E base ov1 none (adV (.vdataclass fs))
          | .vdict es =>
              let allowed : Value → Bool := fun k =>
                (match eff.include' with
                 | some I => I.any (fun i => vbeq i k)
                 | none => true) &&
                !(match eff.exclude with
                  | some X => X.any (fun x => vbeq x k)
                  | none => false)
              let childE := pyMerge default_encoders E
              wrapDict ov1
                (dictLoop (fun x => (encodeN n childE (dict_narrow eff) none none x).1)
                  eff allowed [] es)
          | .venum p => (.ok p, ov1)
          | .vpath s => (.ok (.vstr s), ov1)
          | .vstr s => (.ok (.vstr s), ov1)
          | .vint m => (.ok (.vint m), ov1)
          | .vbool b => (.ok (.vbool b), ov1)
          | .vfloat x => (.ok (.vfloat x), ov1)
          | .vnone => (.ok .vnone, ov1)
          | .vset xs =>
              if eff.preserve_set then
                wrapSeq .vset (setLoop (fun st x => encodeN n E base st none x) ov1 [] xs)
              else
                wrapSeq .vlist (listLoop (fun st x => encodeN n E base st none x) ov1 xs)
          | .vfrozenset xs =>
              if eff.preserve_set then
                wrapSeq .vset (setLoop (fun st x => encodeN n E base st none x) ov1 [] xs)
              else
                wrapSeq .vlist (listLoop (fun st x => encodeN n E base st none x) ov1 xs)
          | .vlist xs =>
              wrapSeq .vlist (listLoop (fun st x => encodeN n E base st none x) ov1 xs)
          | .vtuple xs =>
              wrapSeq .vlist (listLoop (fun st x => encodeN n E base st none x) ov1 xs)
          | .vgen xs =>
              wrapSeq .vlist (listLoop (fun st x => encodeN n E base st none x) ov1 xs)
          | .vdatetime d => (tail_encode (.vdatetime d), ov1)
          | .vdate y m d => (tail_encode (.vdate y m d), ov1)
          | .vuuid s => (tail_encode (.vuuid s), ov1)
          | .vdecimal mant e => (tail_encode (.vdecimal mant e), ov1)
          | .vtimedelta us => (tail_encode (.vtimedelta us), ov1)
          | .vbytes s => (tail_encode (.vbytes s), ov1)
          | .vobj dr vr de ve => (tail_encode (.vobj dr vr de ve), ov1)
      resetOnOk res

/-- `JsonAblr(encoders=E, **options)(data)`: construct an instance
(merging the default encoders under the caller's, main.py lines 75-81)
and call it without per-call options, with sufficient fuel. -/
def runJsonAblr (encoders : Encoders) (o : Options) (v : Value) :
    Except EncodeError Value :=
  (encodeN (vsize v) (pyMerge default_encoders encoders) o none none v).1

/-- The module-level entry point `encode(data, **options)` (main.py
lines 44-49): pop `encoders`, parse the remaining keywords into
`Options`, build a `JsonAblr` and call it. -/
def encode (encoders : Encoders) (kwargs : List (String × OptVal)) (data : Value) :
    Except EncodeError Value :=
  match Options.parse_obj kwargs with
  | .error e => .error e
  | .ok o => runJsonAblr encoders o data

/-- An instance-level call `encoder.encode(obj, **options)` on
`JsonAblr(encoders=E, **base)` whose current `_override_options` is
`ov`; `oa` is the per-call keyword options.  Returns the outcome and
the instance's `_override_options` afterwards. -/
def encodeWith (E : Encoders) (base : Options) (ov : Option Options)
    (oa : Option Options) (v : Value) : Except EncodeError Value × Option Options :=
  encodeN (vsize v) (pyMerge default_encoders E) base ov oa v

instance {ε α : Type} [DecidableEq ε] [DecidableEq α] : DecidableEq (Except ε α) :=
  fun a b =>
    match a, b with
    | .ok x, .ok y => if h : x = y then .isTrue (by rw [h]) else .isFalse (by simp [h])
    | .ok _, .error _ => .isFalse (by simp)
    | .error _, .ok _ => .isFalse (by simp)
    | .error e, .error f => if h : e = f then .isTrue (by rw [h]) else .isFalse (by simp [h])

/-! ## Predicates used by the claim statements -/

/-- The retention rule of spec §4.2 rule 4, written from the spec's
words: a dict entry survives when its key is in `include` (if present),
not in `exclude` (if present), its value is not null under
`exclude_none`, and its key is not an `_sa`-prefixed string under
`sqlalchemy_safe`. -/
def specRetains (o : Options) (kv : Value × Value) : Bool :=
  (match o.include' with
   | some I => I.any (fun i => vbeq i kv.1)
   | none => true) &&
  !(match o.exclude with
    | some X => X.any (fun x => vbeq x kv.1)
    | none => false) &&
  !(o.exclude_none && vbeq kv.2 .vnone) &&
  !(o.sqlalchemy_safe && isSaStr kv.1)

/-- Distinctness of the keys of an association-list mapping. -/
def keysNoDup : List (Value × Value) → Bool
  | [] => true
  | (k, _) :: t => !(t.any (fun kv => vbeq kv.1 k)) && keysNoDup t

mutual

/-- A JSON-ready tree (spec §8 idempotence property): primitives,
ordered sequences and mappings only, mapping keys hashable and pairwise
distinct (as they are in any real Python dict).  When `sa` is true the
tree must moreover contain no `_sa`-prefixed string mapping key. -/
def jsonReadyB (sa : Bool) : Value → Bool
  | .vnone | .vbool _ | .vint _ | .vfloat _ | .vstr _ => true
  | .vlist xs => jrL sa xs
  | .vdict es => jrP sa es && keysNoDup es
  | _ => false

def jrL (sa : Bool) : List Value → Bool
  | [] => true
  | x :: t => jsonReadyB sa x && jrL sa t

def jrP (sa : Bool) : List (Value × Value) → Bool
  | [] => true
  | (k, v) :: t =>
      jsonReadyB sa k && !(unhashable k) && (!sa || !(isSaStr k)) &&
        jsonReadyB sa v && jrP sa t

end

/-! ## Size lemmas -/

mutual

theorem pdV_size : ∀ (po : PdOpts) (v : Value), vsize (pdV po v) ≤ vsize v
  | po, .vmodel fs => by
      have h := pdFields_size none none po fs
      simp [pdV, vsize]; omega
  | po, .vlist xs => by
      have h := pdL_size po xs
      simp [pdV, vsize]; omega
  | po, .vtuple xs => by
      have h := pdL_size po xs
      simp [pdV, vsize]; omega
  | po, .vgen xs => by
      have h := pdL_size po xs
      simp [pdV, vsize]; omega
  | po, .vset xs => by
      have h := pdL_size po xs
      simp [pdV, vsize]; omega
  | po, .vfrozenset xs => by
      have h := pdL_size po xs
      simp [pdV, vsize]; omega
  | po, .vdict es => by
      have h := pdP_size po es
      simp [pdV, vsize]; omega
  | _, .vnone => le_refl _
  | _, .vbool _ => le_refl _
  | _, .vint _ => le_refl _
  | _, .vfloat _ => le_refl _
  | _, .vstr _ => le_refl _
  | _, .vbytes _ => le_refl _
  | _, .vdatetime _ => le_refl _
  | _, .vdate _ _ _ => le_refl _
  | _, .venum _ => le_refl _
  | _, .vpath _ => le_refl _
  | _, .vuuid _ => le_refl _
  | _, .vdecimal _ _ => le_refl _
  | _, .vtimedelta _ => le_refl _
  | _, .vdataclass _ => le_refl _
  | _, .vobj _ _ _ _ => le_refl _

theorem pdL_size : ∀ (po : PdOpts) (xs : List Value), lsize (pdL po xs) ≤ lsize xs
  | _, [] => le_refl _
  | po, x :: t => by
      have h1 := pdV_size po x
      have h2 := pdL_size po t
      simp [pdL, lsize]; omega

theorem pdP_size : ∀ (po : PdOpts) (es : List (Value × Value)),
    psize (pdP po es) ≤ psize es
  | _, [] => le_refl _
  | po, (k, v) :: t => by
      have h1 := pdV_size po k
      have h2 := pdV_size po v
      have h3 := pdP_size po t
      simp [pdP, psize]; omega

theorem pdFields_size : ∀ (inc exc : Option (List Value)) (po : PdOpts)
    (fs : List (String × String × Value × Bool × Value)),
    psize (pdFields inc exc po fs) ≤ fsize fs
  | _, _, _, [] => le_refl _
  | inc, exc, po, (name, al, v, isSet, dflt) :: rest => by
      have ht := pdFields_size inc exc po rest
      have hv := pdV_size po v
      simp only [pdFields]
      repeat' split
      all_goals simp [psize, fsize, vsize]
      all_goals omega

end

mutual

theorem adV_size : ∀ v : Value, vsize (adV v) ≤ vsize v
  | .vdataclass fs => by
      have h := adFields_size fs
      simp [adV, vsize]; omega
  | .vlist xs => by
      have h := adL_size xs
      simp [adV, vsize]; omega
  | .vtuple xs => by
      have h := adL_size xs
      simp [adV, vsize]; omega
  | .vdict es => by
      have h := adP_size es
      simp [adV, vsize]; omega
  | .vnone => le_refl _
  | .vbool _ => le_refl _
  | .vint _ => le_refl _
  | .vfloat _ => le_refl _
  | .vstr _ => le_refl _
  | .vbytes _ => le_refl _
  | .vgen _ => le_refl _
  | .vset _ => le_refl _
  | .vfrozenset _ => le_refl _
  | .vdatetime _ => le_refl _
  | .vdate _ _ _ => le_refl _
  | .venum _ => le_refl _
  | .vpath _ => le_refl _
  | .vuuid _ => le_refl _
  | .vdecimal _ _ => le_refl _
  | .vtimedelta _ => le_refl _
  | .vmodel _ => le_refl _
  | .vobj _ _ _ _ => le_refl _

theorem adFields_size : ∀ fs : List (String × Value), psize (adFields fs) ≤ dsize fs
  | [] => le_refl _
  | (n, v) :: t => by
      have h1 := adV_size v
      have h2 := adFields_size t
      simp [adFields, psize, dsize, vsize]; omega

theorem adL_size : ∀ xs : List Value, lsize (adL xs) ≤ lsize xs
  | [] => le_refl _
  | x :: t => by
      have h1 := adV_size x
      have h2 := adL_size t
      simp [adL, lsize]; omega

theorem adP_size : ∀ es : List (Value × Value), psize (adP es) ≤ psize es
  | [] => le_refl _
  | (k, v) :: t => by
      have h1 := adV_size k
      have h2 := adV_size v
      have h3 := adP_size t
      simp [adP, psize]; omega

end

theorem rootExtract_size (es : List (Value × Value)) :
    vsize (rootExtract es) ≤ 1 + psize es := by
  unfold rootExtract
  cases hf : es.find? (fun kv => kv.1 == Value.vstr "__root__") with
  | none => simp [vsize]
  | some kv =>
      have hm := List.mem_of_find?_eq_some hf
      rcases kv with ⟨k, v⟩
      have := psize_mem_val hm
      simp
      omega

theorem model_child_le {inc exc : Option (List Value)} {po : PdOpts}
    {fs : List (String × String × Value × Bool × Value)} {n : Nat}
    (h : vsize (.vmodel fs) ≤ n + 1) :
    vsize (rootExtract (pdFields inc exc po fs)) ≤ n := by
  have h1 := rootExtract_size (pdFields inc exc po fs)
  have h2 := pdFields_size inc exc po fs
  simp [vsize] at h
  omega

theorem ad_child_le {fs : List (String × Value)} {n : Nat}
    (h : vsize (.vdataclass fs) ≤ n + 1) :
    vsize (adV (.vdataclass fs)) ≤ n := by
  have h1 := adFields_size fs
  simp [vsize, adV] at h ⊢
  omega

theorem dict_key_le {k v : Value} {es : List (Value × Value)} {n : Nat}
    (hkv : (k, v) ∈ es) (h : vsize (.vdict es) ≤ n + 1) : vsize k ≤ n := by
  have := psize_mem_key hkv
  simp [vsize] at h
  omega

theorem dict_val_le {k v : Value} {es : List (Value × Value)} {n : Nat}
    (hkv : (k, v) ∈ es) (h : vsize (.vdict es) ≤ n + 1) : vsize v ≤ n := by
  have := psize_mem_val hkv
  simp [vsize] at h
  omega

theorem elem_le {x : Value} {xs : List Value} {n : Nat}
    (hx : x ∈ xs) (h : 1 + lsize xs ≤ n + 1) : vsize x ≤ n := by
  have := lsize_mem hx
  omega

/-! ## Loop congruence lemmas -/

theorem dictLoop_congr {f g : Value → Except EncodeError Value} {eff : Options}
    {allowed : Value → Bool} :
    ∀ (l : List (Value × Value)) (acc : List (Value × Value)),
      (∀ kv ∈ l, f kv.1 = g kv.1 ∧ f kv.2 = g kv.2) →
      dictLoop f eff allowed acc l = dictLoop g eff allowed acc l
  | [], _, _ => rfl
  | (key, v) :: rest, acc, h => by
      have hh := h (key, v) (List.mem_cons_self _ _)
      have ht : ∀ kv ∈ rest, f kv.1 = g kv.1 ∧ f kv.2 = g kv.2 :=
        fun kv hm => h kv (List.mem_cons_of_mem _ hm)
      simp only [dictLoop]
      split
      · exact dictLoop_congr rest acc ht
      · split
        · exact dictLoop_congr rest acc ht
        · split
          · exact dictLoop_congr rest acc ht
          · rw [hh.2]
            cases g v with
            | error e => rfl
            | ok ev =>
                dsimp only
                rw [hh.1]
                cases g key with
                | error e => rfl
                | ok ek =>
                    dsimp only
                    split
                    · rfl
                    · exact dictLoop_congr rest _ ht

theorem listLoop_congr
    {f g : Option Options → Value → Except EncodeError Value × Option Options} :
    ∀ (l : List Value) (st : Option Options),
      (∀ st' x, x ∈ l → f st' x = g st' x) →
      listLoop f st l = listLoop g st l
  | [], _, _ => rfl
  | x :: xs, st, h => by
      simp only [listLoop]
      rw [h st x (List.mem_cons_self _ _)]
      cases g st x with
      | mk r st1 =>
          cases r with
          | error e => rfl
          | ok rv =>
              dsimp only
              rw [listLoop_congr xs st1 (fun st' y hy => h st' y (List.mem_cons_of_mem _ hy))]

theorem setLoop_congr
    {f g : Option Options → Value → Except EncodeError Value × Option Options} :
    ∀ (l : List Value) (st : Option Options) (acc : List Value),
      (∀ st' x, x ∈ l → f st' x = g st' x) →
      setLoop f st acc l = setLoop g st acc l
  | [], _, _, _ => rfl
  | x :: xs, st, acc, h => by
      simp only [setLoop]
      rw [h st x (List.mem_cons_self _ _)]
      cases g st x with
      | mk r st1 =>
          cases r with
          | error e => rfl
          | ok rv =>
              dsimp only
              split
              · rfl
              · rw [setLoop_congr xs st1 (pySetAdd acc rv)
                  (fun st' y hy => h st' y (List.mem_cons_of_mem _ hy))]

/-! ## Fuel invariance -/

theorem encodeN_fuel :
    ∀ (n m : Nat) (E : Encoders) (base : Options) (ov oa : Option Options) (v : Value),
      vsize v ≤ n → vsize v ≤ m →
      encodeN n E base ov oa v = encodeN m E base ov oa v := by
  intro n
  induction n with
  | zero =>
      intro m E base ov oa v hn _
      exact absurd hn (by have := vsize_pos v; omega)
  | succ n ih =>
      intro m E base ov oa v hn hm
      obtain ⟨m', rfl⟩ : ∃ m', m = m' + 1 := by
        have := vsize_pos v
        exact ⟨m - 1, by omega⟩
      simp only [encodeN]
      cases hg : get_encoder E v with
      | some f => rfl
      | none =>
        cases v with
        | vmodel fs =>
            dsimp only
            rw [ih m']
            · exact model_child_le hn
            · exact model_child_le hm
        | vdataclass fs =>
            dsimp only
            rw [ih m']
            · exact ad_child_le hn
            · exact ad_child_le hm
        | vdict es =>
            dsimp only
            apply congrArg resetOnOk
            apply congrArg (wrapDict _)
            apply dictLoop_congr
            intro kv hkv
            obtain ⟨k1, v1⟩ := kv
            refine ⟨?_, ?_⟩
            · dsimp only
              rw [ih m']
              · exact dict_key_le hkv hn
              · exact dict_key_le hkv hm
            · dsimp only
              rw [ih m']
              · exact dict_val_le hkv hn
              · exact dict_val_le hkv hm
        | vset xs =>
            simp only [vsize] at hn hm
            dsimp only
            apply congrArg resetOnOk
            split
            · apply congrArg (wrapSeq _)
              apply setLoop_congr
              intro st' x hx
              rw [ih m']
              · exact elem_le hx hn
              · exact elem_le hx hm
            · apply congrArg (wrapSeq _)
              apply listLoop_congr
              intro st' x hx
              rw [ih m']
              · exact elem_le hx hn
              · exact elem_le hx hm
        | vfrozenset xs =>
            simp only [vsize] at hn hm
            dsimp only
            apply congrArg resetOnOk
            split
            · apply congrArg (wrapSeq _)
              apply setLoop_congr
              intro st' x hx
              rw [ih m']
              · exact elem_le hx hn
              · exact elem_le hx hm
            · apply congrArg (wrapSeq _)
              apply listLoop_congr
              intro st' x hx
              rw [ih m']
              · exact elem_le hx hn
              · exact elem_le hx hm
        | vlist xs =>
            simp only [vsize] at hn hm
            dsimp only
            apply congrArg resetOnOk
            apply congrArg (wrapSeq _)
            apply listLoop_congr
            intro st' x hx
            rw [ih m']
            · exact elem_le hx hn
            · exact elem_le hx hm
        | vtuple xs =>
            simp only [vsize] at hn hm
            dsimp only
            apply congrArg resetOnOk
            apply congrArg (wrapSeq _)
            apply listLoop_congr
            intro st' x hx
            rw [ih m']
            · exact elem_le hx hn
            · exact elem_le hx hm
        | vgen xs =>
            simp only [vsize] at hn hm
            dsimp only
            apply congrArg resetOnOk
            apply congrArg (wrapSeq _)
            apply listLoop_congr
            intro st' x hx
            rw [ih m']
            · exact elem_le hx hn
            · exact elem_le hx hm
        | vnone => rfl
        | vbool b => rfl
        | vint k => rfl
        | vfloat x => rfl
        | vstr s => rfl
        | vbytes s => rfl
        | vdatetime d => rfl
        | vdate y mo d => rfl
        | venum p => rfl
        | vpath s => rfl
        | vuuid s => rfl
        | vdecimal mant e => rfl
        | vtimedelta us => rfl
        | vobj dr vr de ve => rfl

/-! ## General helper lemmas about the engine -/

theorem resetOnOk_fst (p : Except EncodeError Value × Option Options) :
    (resetOnOk p).1 = p.1 := by
  rcases p with ⟨r, st⟩
  cases r <;> rfl

/-- The Python slice `s[:-6]` drops exactly an appended 6-character
suffix. -/
theorem pySliceDropLast_append_offset (a : String) :
    pySliceDropLast (a ++ "+00:00") 6 = a := by
  rcases a with ⟨data⟩
  have h : (String.mk data ++ "+00:00").data = data ++ ['+', '0', '0', ':', '0', '0'] := rfl
  show String.mk (((String.mk data ++ "+00:00").data).take
      ((String.mk data ++ "+00:00").data.length - 6)) = String.mk data
  rw [h]
  simp

/-- The override state after `JsonAblr.encode` processes its keyword
arguments (main.py lines 94-95). -/
def ovArg (ov oa : Option Options) : Option Options :=
  match oa with
  | some o => some o
  | none => ov

theorem encodeN_step_model (n : Nat) (E : Encoders) (base : Options)
    (ov oa : Option Options) (fs : List (String × String × Value × Bool × Value))
    (hg : get_encoder E (.vmodel fs) = none) :
    encodeN (n + 1) E base ov oa (.vmodel fs) =
      resetOnOk
        ((encodeN n (pyMerge default_encoders E)
            (model_narrow ((ovArg ov oa).getD base)) none none
            (rootExtract (pdFields ((ovArg ov oa).getD base).include'
              ((ovArg ov oa).getD base).exclude
              (pd_opts ((ovArg ov oa).getD base)) fs))).1,
          ovArg ov oa) := by
  simp only [encodeN, hg, ovArg]

theorem encodeN_step_dict (n : Nat) (E : Encoders) (base : Options)
    (ov oa : Option Options) (es : List (Value × Value))
    (hg : get_encoder E (.vdict es) = none) :
    encodeN (n + 1) E base ov oa (.vdict es) =
      resetOnOk
        (wrapDict (ovArg ov oa)
          (dictLoop
            (fun x => (encodeN n (pyMerge default_encoders E)
                (dict_narrow ((ovArg ov oa).getD base)) none none x).1)
            ((ovArg ov oa).getD base)
            (fun k =>
              (match ((ovArg ov oa).getD base).include' with
               | some I => I.any (fun i => vbeq i k)
               | none => true) &&
              !(match ((ovArg ov oa).getD base).exclude with
                | some X => X.any (fun x => vbeq x k)
                | none => false))
            [] es)) := by
  simp only [encodeN, hg, ovArg]

theorem encodeN_step_list (n : Nat) (E : Encoders) (base : Options)
    (ov oa : Option Options) (xs : List Value)
    (hg : get_encoder E (.vlist xs) = none) :
    encodeN (n + 1) E base ov oa (.vlist xs) =
      resetOnOk
        (wrapSeq .vlist
          (listLoop (fun st x => encodeN n E base st none x) (ovArg ov oa) xs)) := by
  simp only [encodeN, hg, ovArg]

theorem jrL_mem {sa : Bool} : ∀ {xs : List Value}, jrL sa xs = true →
    ∀ x ∈ xs, jsonReadyB sa x = true := by
  intro xs hxs x hx
  induction xs with
  | nil => cases hx
  | cons z zs ih =>
      simp only [jrL, Bool.and_eq_true] at hxs
      rcases List.mem_cons.mp hx with h | h
      · subst h; exact hxs.1
      · exact ih hxs.2 h

theorem jrP_mem {sa : Bool} : ∀ {es : List (Value × Value)}, jrP sa es = true →
    ∀ kv ∈ es, jsonReadyB sa kv.1 = true ∧ unhashable kv.1 = false ∧
      (sa = true → isSaStr kv.1 = false) ∧ jsonReadyB sa kv.2 = true := by
  intro es hes kv hkv
  induction es with
  | nil => cases hkv
  | cons e t ih =>
      rcases e with ⟨k, v⟩
      simp only [jrP, Bool.and_eq_true] at hes
      obtain ⟨⟨⟨⟨h1, h2⟩, h3⟩, h4⟩, h5⟩ := hes
      rw [Bool.not_eq_true'] at h2
      rcases List.mem_cons.mp hkv with h | h
      · subst h
        refine ⟨h1, h2, ?_, h4⟩
        intro hsa
        subst hsa
        simp only [Bool.not_true, Bool.false_or, Bool.not_eq_true'] at h3
        exact h3
      · exact ih h5 h

theorem keysNoDup_head : ∀ {k v : Value} {t : List (Value × Value)},
    keysNoDup ((k, v) :: t) = true →
    (∀ kv ∈ t, kv.1 ≠ k) ∧ keysNoDup t = true := by
  intro k v t h
  simp only [keysNoDup, Bool.and_eq_true, Bool.not_eq_true'] at h
  refine ⟨?_, h.2⟩
  intro kv hkv heq
  have := List.any_eq_false.mp h.1 kv hkv
  rw [heq] at this
  exact this ((vbeq_iff k k).2 rfl)

theorem listLoop_fixed
    {f : Option Options → Value → Except EncodeError Value × Option Options} :
    ∀ xs : List Value, (∀ x ∈ xs, f none x = (.ok x, none)) →
      listLoop f none xs = (.ok xs, none) := by
  intro xs h
  induction xs with
  | nil => rfl
  | cons x t ih =>
      simp only [listLoop]
      rw [h x (List.mem_cons_self _ _)]
      dsimp only
      rw [ih (fun y hy => h y (List.mem_cons_of_mem _ hy))]

theorem pyUpdate_fresh {k : Value} (v : Value) :
    ∀ {acc : List (Value × Value)}, (∀ kv ∈ acc, kv.1 ≠ k) →
      pyUpdate acc k v = acc ++ [(k, v)] := by
  intro acc h
  induction acc with
  | nil => rfl
  | cons e t ih =>
      rcases e with ⟨k0, v0⟩
      have hne : (k0 == k) = false := by
        rw [Bool.eq_false_iff]
        intro hb
        exact h (k0, v0) (List.mem_cons_self _ _) ((vbeq_iff k0 k).1 hb)
      simp only [pyUpdate, hne, Bool.false_eq_true, if_false, List.cons_append]
      rw [ih (fun kv hkv => h kv (List.mem_cons_of_mem _ hkv))]

theorem dictLoop_fixed (f : Value → Except EncodeError Value) (eff : Options)
    (allowed : Value → Bool)
    (hen : eff.exclude_none = false) :
    ∀ (es acc : List (Value × Value)),
      (∀ kv ∈ es, allowed kv.1 = true) →
      (∀ kv ∈ es, isSaStr kv.1 = false) →
      (∀ kv ∈ es, f kv.1 = .ok kv.1 ∧ f kv.2 = .ok kv.2) →
      (∀ kv ∈ es, unhashable kv.1 = false) →
      (∀ kv ∈ es, ∀ kv0 ∈ acc, kv0.1 ≠ kv.1) →
      keysNoDup es = true →
      dictLoop f eff allowed acc es = .ok (acc ++ es) := by
  intro es
  induction es with
  | nil => intro acc _ _ _ _ _ _; simp [dictLoop]
  | cons e t ih =>
      rcases e with ⟨k, v⟩
      intro acc hall hsa hf hh hfresh hnd
      have hhead := List.mem_cons_self (k, v) t
      obtain ⟨hndh, hndt⟩ := keysNoDup_head hnd
      simp only [dictLoop, hall _ hhead, Bool.not_true, Bool.false_eq_true, if_false,
        hen, Bool.and_false, hsa _ hhead, Bool.and_false, (hf _ hhead).1, (hf _ hhead).2,
        hh _ hhead, if_false]
      rw [pyUpdate_fresh v (fun kv0 hkv0 => hfresh (k, v) hhead kv0 hkv0)]
      rw [ih (acc ++ [(k, v)])
        (fun kv hkv => hall kv (List.mem_cons_of_mem _ hkv))
        (fun kv hkv => hsa kv (List.mem_cons_of_mem _ hkv))
        (fun kv hkv => hf kv (List.mem_cons_of_mem _ hkv))
        (fun kv hkv => hh kv (List.mem_cons_of_mem _ hkv))
        ?_ hndt]
      · simp
      · intro kv hkv kv0 hkv0
        rcases List.mem_append.mp hkv0 with h0 | h0
        · exact hfresh kv (List.mem_cons_of_mem _ hkv) kv0 h0
        · have : kv0 = (k, v) := by simpa using h0
          subst this
          exact fun heq => hndh kv hkv heq.symm

theorem encodeN_jsonReady_fixed :
    ∀ (n : Nat) (y : Value), vsize y ≤ n → jsonReadyB true y = true →
      encodeN n default_encoders {} none none y = (.ok y, none) := by
  intro n
  induction n with
  | zero =>
      intro y hs _
      exact absurd hs (by have := vsize_pos y; omega)
  | succ n ih =>
      intro y hs hj
      cases y with
      | vnone => rfl
      | vbool b => rfl
      | vint k => rfl
      | vfloat x => rfl
      | vstr s => rfl
      | vlist xs =>
          simp only [vsize] at hs
          simp only [jsonReadyB] at hj
          rw [encodeN_step_list _ _ _ _ _ _ (by rfl)]
          rw [show ovArg (none : Option Options) none = none from rfl]
          rw [listLoop_fixed xs ?_]
          · rfl
          · intro x hx
            have hb : vsize x ≤ n := by
              have := lsize_mem hx; omega
            exact ih x hb (jrL_mem hj x hx)
      | vdict es =>
          simp only [vsize] at hs
          simp only [jsonReadyB, Bool.and_eq_true] at hj
          rw [encodeN_step_dict _ _ _ _ _ _ (by rfl)]
          rw [show ovArg (none : Option Options) none = none from rfl]
          have hloop := dictLoop_fixed
            (fun x => (encodeN n (pyMerge default_encoders default_encoders)
              (dict_narrow (Option.getD none ({} : Options))) none none x).1)
            (Option.getD none ({} : Options))
            (fun k =>
              (match (Option.getD none ({} : Options)).include' with
               | some I => I.any (fun i => vbeq i k)
               | none => true) &&
              !(match (Option.getD none ({} : Options)).exclude with
                | some X => X.any (fun x => vbeq x k)
                | none => false))
            rfl es []
            (fun kv _ => rfl)
            (fun kv hkv => ((jrP_mem hj.1 kv hkv).2.2.1 rfl))
            ?_
            (fun kv hkv => (jrP_mem hj.1 kv hkv).2.1)
            (fun kv _ kv0 h0 => absurd h0 (List.not_mem_nil kv0))
            hj.2
          · rw [hloop]
            rfl
          · intro kv hkv
            obtain ⟨k1, v1⟩ := kv
            have hbk : vsize k1 ≤ n := by
              have := psize_mem_key hkv; omega
            have hbv : vsize v1 ≤ n := by
              have := psize_mem_val hkv; omega
            have hm := jrP_mem hj.1 (k1, v1) hkv
            have h1 := ih k1 hbk hm.1
            have h2 := ih v1 hbv hm.2.2.2
            constructor
            · show (encodeN n default_encoders {} none none k1).1 = Except.ok k1
              rw [h1]
            · show (encodeN n default_encoders {} none none v1).1 = Except.ok v1
              rw [h2]
      | vbytes s => simp [jsonReadyB] at hj
      | vtuple xs => simp [jsonReadyB] at hj
      | vgen xs => simp [jsonReadyB] at hj
      | vset xs => simp [jsonReadyB] at hj
      | vfrozenset xs => simp [jsonReadyB] at hj
      | vdatetime d => simp [jsonReadyB] at hj
      | vdate y m d => simp [jsonReadyB] at hj
      | venum p => simp [jsonReadyB] at hj
      | vpath s => simp [jsonReadyB] at hj
      | vuuid s => simp [jsonReadyB] at hj
      | vdecimal m e => simp [jsonReadyB] at hj
      | vtimedelta u => simp [jsonReadyB] at hj
      | vmodel fs => simp [jsonReadyB] at hj
      | vdataclass fs => simp [jsonReadyB] at hj
      | vobj dr vr de ve => simp [jsonReadyB] at hj

theorem forall2_imp_mem {α β : Type} {R S : α → β → Prop} :
    ∀ {l1 : List α} {l2 : List β}, List.Forall₂ R l1 l2 →
      (∀ a b, a ∈ l1 → R a b → S a b) → List.Forall₂ S l1 l2 := by
  intro l1 l2 h himp
  induction h with
  | nil => exact List.Forall₂.nil
  | cons hab htl ih =>
      exact List.Forall₂.cons (himp _ _ (List.mem_cons_self _ _) hab)
        (ih (fun a b ha => himp a b (List.mem_cons_of_mem _ ha)))

/-- Shape of a successful `handle_dict` run: when the encodings of the
retained keys are pairwise distinct (and fresh with respect to the
accumulator), the output is the accumulator extended by the
elementwise-encoded retained entries, in input iteration order. -/
theorem dictLoop_ok_spec (f : Value → Except EncodeError Value) (eff : Options)
    (allowed : Value → Bool)
    (hkeep : ∀ kv : Value × Value, specRetains eff kv =
      (allowed kv.1 && !(vbeq kv.2 .vnone && eff.exclude_none) &&
       !(eff.sqlalchemy_safe && isSaStr kv.1))) :
    ∀ (es acc out : List (Value × Value)),
      dictLoop f eff allowed acc es = .ok out →
      (∀ kv ∈ es.filter (specRetains eff), ∀ kv0 ∈ acc, f kv.1 ≠ .ok kv0.1) →
      (es.filter (specRetains eff)).Pairwise (fun a b => f a.1 ≠ f b.1) →
      ∃ L, out = acc ++ L ∧
        List.Forall₂ (fun kv ou => f kv.1 = .ok ou.1 ∧ f kv.2 = .ok ou.2)
          (es.filter (specRetains eff)) L := by
  intro es
  induction es with
  | nil =>
      intro acc out hdl _ _
      refine ⟨[], by simpa [dictLoop] using hdl.symm, by simp⟩
  | cons e rest ih =>
      rcases e with ⟨key, v⟩
      intro acc out hdl hfresh hpw
      by_cases h1 : allowed key = true
      · by_cases h2 : (vbeq v .vnone && eff.exclude_none) = true
        · -- dropped by exclude_none
          have hsr : specRetains eff (key, v) = false := by
            rw [hkeep]; simp [h2]
          simp only [List.filter_cons, hsr, Bool.false_eq_true, if_false] at hfresh hpw ⊢
          simp only [dictLoop, h1, Bool.not_true, Bool.false_eq_true, if_false, h2,
            if_true] at hdl
          exact ih acc out hdl hfresh hpw
        · by_cases h3 : (eff.sqlalchemy_safe && isSaStr key) = true
          · have hsr : specRetains eff (key, v) = false := by
              rw [hkeep]; simp [h3]
            simp only [List.filter_cons, hsr, Bool.false_eq_true, if_false] at hfresh hpw ⊢
            simp only [dictLoop, h1, Bool.not_true, Bool.false_eq_true, if_false,
              h2, if_false, h3, if_true] at hdl
            exact ih acc out hdl hfresh hpw
          · -- retained entry
            have hsr : specRetains eff (key, v) = true := by
              rw [hkeep]
              simp only [h1, Bool.eq_false_iff.mpr h2, Bool.eq_false_iff.mpr h3]
              simp
            simp only [List.filter_cons, hsr, if_true] at hfresh hpw ⊢
            simp only [dictLoop, h1, Bool.not_true, Bool.false_eq_true, if_false,
              h2, if_false, h3] at hdl
            cases hv : f v with
            | error e => rw [hv] at hdl; cases hdl
            | ok ev =>
                rw [hv] at hdl
                dsimp only at hdl
                cases hk : f key with
                | error e => rw [hk] at hdl; cases hdl
                | ok ek =>
                    rw [hk] at hdl
                    dsimp only at hdl
                    by_cases hu : unhashable ek = true
                    · rw [if_pos hu] at hdl; cases hdl
                    · rw [if_neg hu] at hdl
                      have hupd : pyUpdate acc ek ev = acc ++ [(ek, ev)] := by
                        apply pyUpdate_fresh
                        intro kv0 hkv0 heq
                        have := hfresh (key, v) (List.mem_cons_self _ _) kv0 hkv0
                        rw [hk, heq] at this
                        exact this rfl
                      rw [hupd] at hdl
                      have hpw_tail := (List.pairwise_cons.mp hpw).2
                      have hpw_head := (List.pairwise_cons.mp hpw).1
                      obtain ⟨L, hout, hfa⟩ := ih (acc ++ [(ek, ev)]) out hdl
                        (by
                          intro kv hkv kv0 hkv0
                          rcases List.mem_append.mp hkv0 with h0 | h0
                          · exact hfresh kv (List.mem_cons_of_mem _ hkv) kv0 h0
                          · have hkv0e : kv0 = (ek, ev) := by simpa using h0
                            subst hkv0e
                            intro habs
                            exact hpw_head kv hkv (by rw [hk, habs])
                        )
                        hpw_tail
                      refine ⟨(ek, ev) :: L, by simpa using hout, ?_⟩
                      exact List.Forall₂.cons ⟨hk, hv⟩ hfa
      · -- dropped by include/exclude
        have h1f : allowed key = false := Bool.eq_false_iff.mpr h1
        have hsr : specRetains eff (key, v) = false := by
          rw [hkeep]; simp [h1f]
        simp only [List.filter_cons, hsr, Bool.false_eq_true, if_false] at hfresh hpw ⊢
        simp only [dictLoop, h1f, Bool.not_false, if_true] at hdl
        exact ih acc out hdl hfresh hpw

/-! ## Claim theorems -/

/-- C3: for every datetime value `d`, `encode(d)` returns the string
obtained by converting `d` to Coordinated Universal Time and rendering
it as `YYYY-MM-DDTHH:MM:SS.mmm` with exactly three zero-padded
fractional-second digits followed by the literal character `Z`, never a
numeric UTC offset; in particular a value at `2020-01-01T13:30:00`
UTC+1 encodes to `"2020-01-01T12:30:00.000Z"`. -/
theorem C3_datetime_encoding :
    (∀ dt : PyDatetime,
        encode [] [] (.vdatetime dt) = .ok (.vstr (datetime_encoder dt)) ∧
        datetime_encoder dt =
          pad4 (astimezone_utc dt).year ++ "-" ++ pad2 (astimezone_utc dt).month ++
            "-" ++ pad2 (astimezone_utc dt).day ++ "T" ++
            pad2 (astimezone_utc dt).hour ++ ":" ++ pad2 (astimezone_utc dt).minute ++
            ":" ++ pad2 (astimezone_utc dt).second ++ "." ++
            pad3 ((astimezone_utc dt).microsecond / 1000) ++ "Z" ∧
        (pad3 ((astimezone_utc dt).microsecond / 1000)).length = 3 ∧
        (astimezone_utc dt).tzOffsetMinutes = 0) ∧
    encode [] [] (.vdatetime ⟨2020, 1, 1, 13, 30, 0, 0, 60⟩) =
      .ok (.vstr "2020-01-01T12:30:00.000Z") := by
  refine ⟨fun dt => ⟨rfl, ?_, rfl, rfl⟩, by decide⟩
  show pySliceDropLast (isoformat_milliseconds (astimezone_utc dt)) 6 ++ "Z" = _
  have hoff : (astimezone_utc dt).tzOffsetMinutes = 0 := rfl
  have hiso : isoformat_milliseconds (astimezone_utc dt) =
      (pad4 (astimezone_utc dt).year ++ "-" ++ pad2 (astimezone_utc dt).month ++
        "-" ++ pad2 (astimezone_utc dt).day ++ "T" ++
        pad2 (astimezone_utc dt).hour ++ ":" ++ pad2 (astimezone_utc dt).minute ++
        ":" ++ pad2 (astimezone_utc dt).second ++ "." ++
        pad3 ((astimezone_utc dt).microsecond / 1000)) ++ "+00:00" := by
    unfold isoformat_milliseconds
    rw [hoff]
    rfl
  rw [hiso, pySliceDropLast_append_offset]

/-- C10: values of types registered in pydantic's `ENCODERS_BY_TYPE`
table (UUID, Decimal, bytes, timedelta) that match no earlier dispatch
rule are converted by the table's encoder — exact runtime-type lookup
first, then the first `isinstance` match over the reverse
encoder-to-types index `encoder_map` — instead of falling through to
the mapping/attribute coercion fallback or raising. -/
theorem C10_encoders_by_type_fallback :
    (∀ s, encode [] [] (.vuuid s) = .ok (.vstr s)) ∧
    (∀ s, encode [] [] (.vbytes s) = .ok (.vstr s)) ∧
    (∀ us, encode [] [] (.vtimedelta us) = .ok (.vfloat ((us : Rat) / 1000000))) ∧
    (∀ mant e, encode [] [] (.vdecimal mant e) =
      .ok (if 0 ≤ e then .vint (mant * (10 : Int) ^ e.toNat)
           else .vfloat ((mant : Rat) / ((10 : Rat) ^ (-e).toNat)))) ∧
    (∀ v, tail_encode v =
      match ENCODERS_BY_TYPE.find? (fun te => te.1 == typeOf v) with
      | some te => .ok (applyPydEnc te.2 v)
      | none =>
        match encoder_map.find? (fun g => g.2.any (fun t => isinst v t)) with
        | some g => .ok (applyPydEnc g.1 v)
        | none =>
          match v with
          | .vobj dictRes varsRes dictExc varsExc =>
              match dictRes with
              | some data => .ok (.vdict data)
              | none =>
                  match varsRes with
                  | some data => .ok (.vdict data)
                  | none => .error (.valueError [dictExc, varsExc])
          | _ => .error (.typeError "not convertible to dict")) ∧
    encoder_map = [(.decodeBytes, [.bytesT]), (.isoformatE, [.dateT, .datetimeT]),
      (.totalSecondsE, [.timedeltaT]), (.decimalE, [.decimalT]),
      (.enumValueE, [.enumT]), (.toListE, [.frozensetT, .genT, .setT]),
      (.toStrE, [.pathT, .uuidT])] :=
  ⟨fun _ => rfl, fun _ => rfl, fun _ => rfl, fun _ _ => rfl, fun _ => rfl, rfl⟩

/-- C4: the code at the opaque-value fallback (main.py lines 138-149)
returns the coerced mapping raw, without re-encoding it through the
mapping rule — the claim's "recurse into the resulting mapping" is the
spec's (and the upstream pattern's) intent but is not what the code
does; the error half (a single `ValueError` carrying both coercion
failures) does hold.  Evaluated at the failing input. -/
theorem C4_fallback_returns_raw :
    encode [] []
        (.vobj (some [(.vstr "when", .vdatetime ⟨2020, 1, 1, 13, 30, 0, 0, 60⟩)])
          none "e1" "e2") =
      .ok (.vdict [(.vstr "when", .vdatetime ⟨2020, 1, 1, 13, 30, 0, 0, 60⟩)]) ∧
    encode [] [] (.vdict [(.vstr "when", .vdatetime ⟨2020, 1, 1, 13, 30, 0, 0, 60⟩)]) =
      .ok (.vdict [(.vstr "when", .vstr "2020-01-01T12:30:00.000Z")]) ∧
    encode [] []
        (.vobj (some [(.vstr "when", .vdatetime ⟨2020, 1, 1, 13, 30, 0, 0, 60⟩)])
          none "e1" "e2") ≠
      encode [] [] (.vdict [(.vstr "when", .vdatetime ⟨2020, 1, 1, 13, 30, 0, 0, 60⟩)]) ∧
    encode [] [] (.vobj none (some [(.vstr "a", .vint 1)]) "TypeError: not iterable" "") =
      .ok (.vdict [(.vstr "a", .vint 1)]) ∧
    encode [] [] (.vobj none none "TypeError: not iterable" "TypeError: vars() failed") =
      .error (.valueError ["TypeError: not iterable", "TypeError: vars() failed"]) := by
  refine ⟨rfl, by decide, ?_, rfl, rfl⟩
  intro h
  rw [show encode [] []
        (.vobj (some [(.vstr "when", .vdatetime ⟨2020, 1, 1, 13, 30, 0, 0, 60⟩)])
          none "e1" "e2") =
      .ok (.vdict [(.vstr "when", .vdatetime ⟨2020, 1, 1, 13, 30, 0, 0, 60⟩)]) from rfl] at h
  rw [show encode [] [] (.vdict [(.vstr "when", .vdatetime ⟨2020, 1, 1, 13, 30, 0, 0, 60⟩)]) =
      .ok (.vdict [(.vstr "when", .vstr "2020-01-01T12:30:00.000Z")]) from by decide] at h
  exact absurd h (by decide)

/-- C5: the code's per-call override options are not fixed for the
whole recursive encoding (a nested `self.encode` call resets
`_override_options` after the first list element), and the instance is
not restored when a call raises (the reset on line 97 is skipped), so a
later call's result can depend on the preceding call.  Evaluated at the
failing inputs. -/
theorem C5_override_state_not_reentrant :
    encodeWith [] {} none (some { exclude_none := true })
        (.vlist [.vdict [(.vstr "a", .vnone)], .vdict [(.vstr "b", .vnone)]]) =
      (.ok (.vlist [.vdict [], .vdict [(.vstr "b", .vnone)]]), none) ∧
    encodeWith [] { exclude_none := true } none none
        (.vlist [.vdict [(.vstr "a", .vnone)], .vdict [(.vstr "b", .vnone)]]) =
      (.ok (.vlist [.vdict [], .vdict []]), none) ∧
    (encodeWith [] {} none (some { exclude_none := true })
        (.vlist [.vdict [(.vstr "a", .vnone)], .vdict [(.vstr "b", .vnone)]])).1 ≠
      (encodeWith [] { exclude_none := true } none none
        (.vlist [.vdict [(.vstr "a", .vnone)], .vdict [(.vstr "b", .vnone)]])).1 ∧
    encodeWith [] {} none (some { exclude_none := true }) (.vobj none none "e1" "e2") =
      (.error (.valueError ["e1", "e2"]), some { exclude_none := true }) ∧
    encodeWith [] {} (some { exclude_none := true }) none (.vdict [(.vstr "b", .vnone)]) =
      (.ok (.vdict []), none) ∧
    encodeWith [] {} none none (.vdict [(.vstr "b", .vnone)]) =
      (.ok (.vdict [(.vstr "b", .vnone)]), none) := by
  refine ⟨by decide, by decide, by decide, by decide, by decide, by decide⟩

/-- C6 counterexample: an unrecognized option key is silently ignored
(pydantic's default `Extra.ignore`), not rejected: the call returns
normally rather than raising a caller-configuration error. -/
theorem C6_counterexample_unknown_key_ignored :
    Options.parse_obj [("bogus", .ob true)] = .ok {} ∧
    encode [] [("bogus", .ob true)] (.vint 1) = .ok (.vint 1) := by
  exact ⟨by decide, rfl⟩

theorem parseStep_unknown {k : String} (v : OptVal) (o : Options)
    (hk : k ∉ ["include", "exclude", "by_alias", "exclude_unset", "exclude_none",
               "exclude_defaults", "sqlalchemy_safe", "preserve_set"]) :
    parseStep o (k, v) = .ok o := by
  simp only [List.mem_cons, not_or] at hk
  unfold parseStep
  split <;> first | rfl | simp_all

/-- C6 amended: a keyword outside the recognized option set is silently
dropped by `Options.parse_obj` (pydantic `Extra.ignore`): removing it
from the keyword list leaves both the parsed options and the result of
`encode` unchanged, and no error is raised for it. -/
theorem C6_amended_unknown_key_ignored (k : String) (v : OptVal)
    (pre post : List (String × OptVal)) (E : Encoders) (data : Value)
    (hk : k ∉ ["include", "exclude", "by_alias", "exclude_unset", "exclude_none",
               "exclude_defaults", "sqlalchemy_safe", "preserve_set"]) :
    Options.parse_obj (pre ++ (k, v) :: post) = Options.parse_obj (pre ++ post) ∧
    encode E (pre ++ (k, v) :: post) data = encode E (pre ++ post) data := by
  have hp : Options.parse_obj (pre ++ (k, v) :: post) = Options.parse_obj (pre ++ post) := by
    unfold Options.parse_obj
    rw [List.foldlM_append, List.foldlM_append]
    cases hpre : List.foldlM parseStep ({} : Options) pre with
    | error e => rfl
    | ok o =>
        show List.foldlM parseStep o ((k, v) :: post) = List.foldlM parseStep o post
        show (parseStep o (k, v) >>= fun o2 => List.foldlM parseStep o2 post) = _
        rw [parseStep_unknown v o hk]
        rfl
  refine ⟨hp, ?_⟩
  unfold encode
  rw [hp]

theorem wrapDict_fst_ok_iff (st : Option Options)
    (x : Except EncodeError (List (Value × Value))) (v : Value) :
    (wrapDict st x).1 = .ok v ↔ ∃ out, x = .ok out ∧ v = .vdict out := by
  cases x <;> simp [wrapDict]
  exact eq_comm

/-- C2 counterexample: two distinct surviving keys (the string `"x"`
and the path `x`) encode to the same key `"x"`, so the output mapping
has a single entry where the claim requires one entry per retained key:
the output does not list the surviving keys. -/
theorem C2_counterexample_key_collision :
    encode [] [] (.vdict [(.vstr "x", .vint 1), (.vpath "x", .vint 2)]) =
      .ok (.vdict [(.vstr "x", .vint 2)]) ∧
    List.filter (specRetains {}) [(.vstr "x", .vint 1), (.vpath "x", .vint 2)] =
      [(.vstr "x", .vint 1), (.vpath "x", .vint 2)] ∧
    [(Value.vstr "x", Value.vint 2)].length ≠
      (List.filter (specRetains {})
        [(.vstr "x", .vint 1), (.vpath "x", .vint 2)]).length := by
  refine ⟨by decide, by decide, by decide⟩

/-- C2 amended: for every dict input, a successful encoding retains
exactly the entries of `(all keys ∩ include) − exclude` (each filter
applied only when present) minus the `_sa`-string keys under
`sqlalchemy_safe` and the null values under `exclude_none`
(`specRetains`), and the output maps the encoded forms of the surviving
keys, in the input dict's iteration order, to the encoded values —
provided the encoded forms of the surviving keys are pairwise distinct
(otherwise the later entry overwrites the earlier one, see the
counterexample). -/
theorem C2_amended_dict_filtering (o : Options) (es : List (Value × Value)) (r : Value)
    (hok : runJsonAblr [] o (.vdict es) = .ok r)
    (hnd : (es.filter (specRetains o)).Pairwise
      (fun a b => runJsonAblr [] (dict_narrow o) a.1 ≠ runJsonAblr [] (dict_narrow o) b.1)) :
    ∃ L, r = .vdict L ∧
      List.Forall₂ (fun kv ou =>
        runJsonAblr [] (dict_narrow o) kv.1 = .ok ou.1 ∧
        runJsonAblr [] (dict_narrow o) kv.2 = .ok ou.2)
      (es.filter (specRetains o)) L := by
  unfold runJsonAblr at hok
  have hN : vsize (Value.vdict es) = psize es + 1 := by
    simp [vsize]; omega
  rw [hN, encodeN_step_dict _ _ _ _ _ _ (by rfl)] at hok
  rw [show ovArg (none : Option Options) none = none from rfl] at hok
  rw [resetOnOk_fst, wrapDict_fst_ok_iff] at hok
  obtain ⟨out, hdl, hr⟩ := hok
  have hconv : ∀ x : Value, vsize x ≤ psize es →
      (encodeN (psize es) (pyMerge default_encoders (pyMerge default_encoders []))
        (dict_narrow ((none : Option Options).getD o)) none none x).1 =
      runJsonAblr [] (dict_narrow o) x := by
    intro x hx
    show (encodeN (psize es) (pyMerge default_encoders [])
        (dict_narrow o) none none x).1 =
      (encodeN (vsize x) (pyMerge default_encoders []) (dict_narrow o) none none x).1
    exact congrArg Prod.fst (encodeN_fuel _ _ _ _ _ _ _ hx (le_refl _))
  have hkeep : ∀ kv : Value × Value, specRetains ((none : Option Options).getD o) kv =
      ((fun k =>
        (match ((none : Option Options).getD o).include' with
         | some I => I.any (fun i => vbeq i k)
         | none => true) &&
        !(match ((none : Option Options).getD o).exclude with
          | some X => X.any (fun x => vbeq x k)
          | none => false)) kv.1 &&
       !(vbeq kv.2 .vnone && ((none : Option Options).getD o).exclude_none) &&
       !(((none : Option Options).getD o).sqlalchemy_safe && isSaStr kv.1)) := by
    intro kv
    unfold specRetains
    rw [Bool.and_comm (vbeq kv.2 Value.vnone) (((none : Option Options).getD o).exclude_none)]
  have hkey_le : ∀ kv : Value × Value, kv ∈ es.filter (specRetains o) →
      vsize kv.1 ≤ psize es := by
    intro kv hkv
    rcases kv with ⟨k1, v1⟩
    exact psize_mem_key (List.mem_of_mem_filter hkv)
  have hval_le : ∀ kv : Value × Value, kv ∈ es.filter (specRetains o) →
      vsize kv.2 ≤ psize es := by
    intro kv hkv
    rcases kv with ⟨k1, v1⟩
    exact psize_mem_val (List.mem_of_mem_filter hkv)
  obtain ⟨L, hout, hfa⟩ := dictLoop_ok_spec _ _ _ hkeep es [] out hdl
    (fun kv _ kv0 h0 => absurd h0 (List.not_mem_nil kv0))
    (by
      refine List.Pairwise.imp_of_mem ?_ hnd
      intro a b ha hb hne habs
      apply hne
      rw [← hconv a.1 (hkey_le a ha), ← hconv b.1 (hkey_le b hb), habs])
  refine ⟨L, by simpa [hout] using hr, ?_⟩
  refine forall2_imp_mem hfa ?_
  intro kv ou hkv hro
  exact ⟨by rw [← hconv kv.1 (hkey_le kv hkv)]; exact hro.1,
         by rw [← hconv kv.2 (hval_le kv hkv)]; exact hro.2⟩

theorem C2_amended_witness :
    ∃ L, (Value.vdict [(.vstr "b", .vint 2), (.vstr "c", .vstr "z")]) = .vdict L ∧
      List.Forall₂ (fun kv ou =>
        runJsonAblr []
          (dict_narrow
            { include' := some [Value.vstr "b", Value.vstr "c"], exclude_none := true })
          kv.1 = .ok ou.1 ∧
        runJsonAblr []
          (dict_narrow
            { include' := some [Value.vstr "b", Value.vstr "c"], exclude_none := true })
          kv.2 = .ok ou.2)
      (List.filter
        (specRetains
          { include' := some [Value.vstr "b", Value.vstr "c"], exclude_none := true })
        [(.vstr "a", .vint 1), (.vstr "b", .vint 2), (.vstr "c", .vstr "z"),
         (.vstr "d", .vnone)]) L :=
  C2_amended_dict_filtering
    { include' := some [Value.vstr "b", Value.vstr "c"], exclude_none := true }
    [(.vstr "a", .vint 1), (.vstr "b", .vint 2), (.vstr "c", .vstr "z"),
     (.vstr "d", .vnone)]
    (.vdict [(.vstr "b", .vint 2), (.vstr "c", .vstr "z")])
    (by decide) (by decide)

/-- C7: a custom encoder `f` registered for the `str` type fully
overrides dispatch rules 2-10 for every string value: the registry
lookup on a string returns `f`; for ANY base options, override state
and per-call options, the engine returns `f s` verbatim in one step
(no further processing of `s`, and `f`'s output is not re-encoded);
and strings nested in a list, tuple, set, dict value, dict key, or
pydantic-model field come out as `f` applied to them (for a surviving
dict key, provided the encoded key is hashable, which Python's
assignment `encoded_dict[encoder(key)] = ...` requires). -/
theorem C7_custom_str_encoder (f : EncFun) (s t : String)
    (hh : unhashable (f (.vstr s)) = false)
    (hha : unhashable (f (.vstr "a")) = false)
    (hsa : isSaStr (.vstr s) = false) :
    get_encoder (pyMerge default_encoders [(.strT, f)]) (.vstr s) = some f ∧
    (∀ (n : Nat) (base : Options) (ov oa : Option Options),
      encodeN (n + 1) (pyMerge default_encoders [(.strT, f)]) base ov oa (.vstr s) =
        (.ok (f (.vstr s)), none)) ∧
    runJsonAblr [(.strT, f)] {} (.vstr s) = .ok (f (.vstr s)) ∧
    runJsonAblr [(.strT, f)] {} (.vlist [.vstr s]) = .ok (.vlist [f (.vstr s)]) ∧
    runJsonAblr [(.strT, f)] {} (.vtuple [.vstr s]) = .ok (.vlist [f (.vstr s)]) ∧
    runJsonAblr [(.strT, f)] {} (.vset [.vstr s]) = .ok (.vlist [f (.vstr s)]) ∧
    runJsonAblr [(.strT, f)] {} (.vdict [(.vstr s, .vstr t)]) =
      .ok (.vdict [(f (.vstr s), f (.vstr t))]) ∧
    runJsonAblr [(.strT, f)] {} (.vmodel [("a", "a", .vstr s, true, .vnone)]) =
      .ok (.vdict [(f (.vstr "a"), f (.vstr s))]) := by
  refine ⟨rfl, fun n base ov oa => rfl, rfl, rfl, rfl, rfl, ?_, ?_⟩
  · show (encodeN (2 + 1) (pyMerge default_encoders [(.strT, f)]) {} none none
        (.vdict [(.vstr s, .vstr t)])).1 =
      .ok (.vdict [(f (.vstr s), f (.vstr t))])
    rw [encodeN_step_dict _ _ _ _ _ _ (by rfl)]
    simp only [ovArg, Option.getD, dictLoop]
    rw [show (encodeN 2
        (pyMerge default_encoders (pyMerge default_encoders [(.strT, f)]))
        (dict_narrow ({} : Options)) none none (.vstr t)).1 = .ok (f (.vstr t)) from rfl]
    rw [show (encodeN 2
        (pyMerge default_encoders (pyMerge default_encoders [(.strT, f)]))
        (dict_narrow ({} : Options)) none none (.vstr s)).1 = .ok (f (.vstr s)) from rfl]
    simp [hsa, hh, pyUpdate, wrapDict, resetOnOk, dictLoop, vbeq, vbeqN, vsize,
      dict_narrow]
  · show (encodeN (5 + 1) (pyMerge default_encoders [(.strT, f)]) {} none none
        (.vmodel [("a", "a", .vstr s, true, .vnone)])).1 =
      .ok (.vdict [(f (.vstr "a"), f (.vstr s))])
    rw [encodeN_step_model _ _ _ _ _ _ (by rfl)]
    rw [show rootExtract (pdFields ((ovArg none none).getD ({} : Options)).include'
        ((ovArg none none).getD ({} : Options)).exclude
        (pd_opts ((ovArg none none).getD ({} : Options)))
        [("a", "a", .vstr s, true, .vnone)]) =
      Value.vdict [(.vstr "a", .vstr s)] from rfl]
    rw [show (5 : Nat) = 4 + 1 from rfl]
    rw [encodeN_step_dict _ _ _ _ _ _ (by rfl)]
    simp only [ovArg, Option.getD, dictLoop]
    rw [show (encodeN 4
        (pyMerge default_encoders
          (pyMerge default_encoders (pyMerge default_encoders [(.strT, f)])))
        (dict_narrow (model_narrow ({} : Options))) none none (.vstr s)).1 =
      .ok (f (.vstr s)) from rfl]
    rw [show (encodeN 4
        (pyMerge default_encoders
          (pyMerge default_encoders (pyMerge default_encoders [(.strT, f)])))
        (dict_narrow (model_narrow ({} : Options))) none none (.vstr "a")).1 =
      .ok (f (.vstr "a")) from rfl]
    rw [show isSaStr (Value.vstr "a") = false from rfl]
    simp [hha, pyUpdate, wrapDict, resetOnOk, dictLoop, vbeq, vbeqN, vsize,
      model_narrow, dict_narrow]

theorem C7_custom_str_encoder_witness :
    unhashable (Value.vstr "X") = false ∧ isSaStr (Value.vstr "k") = false ∧
    runJsonAblr [(.strT, fun _ => .vstr "X")] {}
        (.vdict [(.vstr "k", .vstr "v")]) =
      .ok (.vdict [(.vstr "X", .vstr "X")]) :=
  ⟨by decide, by decide,
    ((C7_custom_str_encoder (fun _ => .vstr "X") "k" "v"
      (by decide) (by decide) (by decide)).2.2.2.2.2.2.1)⟩

/-- C8 counterexample: a dict with an enum key whose payload is the
string `"_sax"` first encodes to the JSON-ready mapping
`{"_sax": 1}` (the enum key is not a `str`, so `sqlalchemy_safe` does
not drop it), but re-encoding that JSON-ready result drops the now
string-typed `_sa`-prefixed key, so `encode(encode(x)) ≠ encode(x)`. -/
theorem C8_counterexample_not_idempotent :
    encode [] [] (.vdict [(.venum (.vstr "_sax"), .vint 1)]) =
      .ok (.vdict [(.vstr "_sax", .vint 1)]) ∧
    jsonReadyB false (.vdict [(.vstr "_sax", .vint 1)]) = true ∧
    encode [] [] (.vdict [(.vstr "_sax", .vint 1)]) = .ok (.vdict []) ∧
    encode [] [] (.vdict [(.vstr "_sax", .vint 1)]) ≠
      .ok (.vdict [(.vstr "_sax", .vint 1)]) := by
  refine ⟨by decide, by decide, by decide, by decide⟩

/-- C8 amended: `encode` is idempotent on JSON-ready output under
default options, provided the output additionally contains no
`_sa`-prefixed string mapping key (which the default `sqlalchemy_safe`
would strip on the second pass — see the counterexample): if
`encode(x)` yields such a tree `y`, then `encode(y) = y`, i.e.
`encode(encode(x)) == encode(x)`. -/
theorem C8_amended_idempotent_no_sa (x y : Value)
    (_h1 : encode [] [] x = .ok y) (hj : jsonReadyB true y = true) :
    encode [] [] y = .ok y := by
  show (encodeN (vsize y) (pyMerge default_encoders []) {} none none y).1 = .ok y
  show (encodeN (vsize y) default_encoders {} none none y).1 = .ok y
  rw [encodeN_jsonReady_fixed (vsize y) y (le_refl _) hj]

theorem C8_amended_witness :
    encode [] [] (.vlist [.vint 1, .vstr "a", .vdict [(.vstr "k", .vnone)]]) =
      .ok (.vlist [.vint 1, .vstr "a", .vdict [(.vstr "k", .vnone)]]) :=
  C8_amended_idempotent_no_sa
    (.vlist [.vint 1, .vstr "a", .vdict [(.vstr "k", .vnone)]])
    (.vlist [.vint 1, .vstr "a", .vdict [(.vstr "k", .vnone)]])
    (by decide) (by decide)

/-- C9: encoding a pydantic model declared with a `__root__` field
returns the encoding of the root payload itself (the payload is
unwrapped by lines 174-175), not a one-key mapping
`{'__root__': payload}`. -/
theorem C9_root_model_unwrapped (v dflt : Value)
    (hv : pdV (pd_opts {}) v = v) :
    runJsonAblr [] {} (.vmodel [("__root__", "__root__", v, true, dflt)]) =
      runJsonAblr [] {} v := by
  unfold runJsonAblr
  have hN : vsize (Value.vmodel [("__root__", "__root__", v, true, dflt)]) =
      (vsize v + vsize dflt + 3) + 1 := by
    simp [vsize, fsize]; omega
  rw [hN, encodeN_step_model _ _ _ _ _ _ (by rfl)]
  have hfields : pdFields ((ovArg none none).getD ({} : Options)).include'
      ((ovArg none none).getD ({} : Options)).exclude
      (pd_opts ((ovArg none none).getD ({} : Options)))
      [("__root__", "__root__", v, true, dflt)] = [(.vstr "__root__", v)] := by
    have hv2 : pdV ⟨true, false, false, false⟩ v = v := hv
    simp [ovArg, pdFields, pd_opts, hv2]
  rw [hfields]
  have hroot : rootExtract [(.vstr "__root__", v)] = v := by
    simp [rootExtract]
  rw [hroot, resetOnOk_fst]
  have hd : vsize dflt ≥ 1 := vsize_pos dflt
  dsimp only
  apply congrArg Prod.fst
  apply encodeN_fuel
  · omega
  · exact le_refl _

theorem C9_root_model_witness :
    runJsonAblr [] {}
        (.vmodel [("__root__", "__root__", .vlist [.vint 1, .vstr "a"], true, .vnone)]) =
      runJsonAblr [] {} (.vlist [.vint 1, .vstr "a"]) :=
  C9_root_model_unwrapped (.vlist [.vint 1, .vstr "a"]) .vnone (by decide)

/-- C1 counterexample: for a model whose field value is a nested model
with an aliased field, the outer call's `by_alias` option changes the
encoding of the nested model's fields (pydantic's `.dict()` applies
`by_alias` recursively), refuting the claim that the four options
affect only the outer object's own top-level fields. -/
theorem C1_counterexample_by_alias_reaches_nested :
    encode [] []
        (.vmodel [("inner", "inner",
          .vmodel [("x", "ax", .vint 1, true, .vnone)], true, .vnone)]) =
      .ok (.vdict [(.vstr "inner", .vdict [(.vstr "ax", .vint 1)])]) ∧
    encode [] [("by_alias", .ob false)]
        (.vmodel [("inner", "inner",
          .vmodel [("x", "ax", .vint 1, true, .vnone)], true, .vnone)]) =
      .ok (.vdict [(.vstr "inner", .vdict [(.vstr "x", .vint 1)])]) ∧
    encode [] []
        (.vmodel [("inner", "inner",
          .vmodel [("x", "ax", .vint 1, true, .vnone)], true, .vnone)]) ≠
      encode [] [("by_alias", .ob false)]
        (.vmodel [("inner", "inner",
          .vmodel [("x", "ax", .vint 1, true, .vnone)], true, .vnone)]) := by
  refine ⟨by decide, by decide, by decide⟩

/-- C1 amended: flat `include`/`exclude` are level-local — as long as
the outer filter retains the nested-model field, the whole encoding
(and in particular the nested model's field encoding) is identical to
the unfiltered call; only `exclude_none`, `exclude_defaults`,
`sqlalchemy_safe`, `preserve_set` are carried into the engine's
recursive options (`model_narrow`); `by_alias` and `exclude_unset`,
however, do reach nested models through the model's own recursive
`.dict()` extraction (see the counterexample). -/
theorem C1_amended_flat_filters_level_local
    (inc exc : Option (List Value))
    (ifs : List (String × String × Value × Bool × Value)) (dflt : Value)
    (hinc : (match inc with
             | some ks => !(ks.any (fun k => k == Value.vstr "inner"))
             | none => false) = false)
    (hexc : (match exc with
             | some ks => ks.any (fun k => k == Value.vstr "inner")
             | none => false) = false) :
    runJsonAblr [] { include' := inc, exclude := exc }
        (.vmodel [("inner", "inner", .vmodel ifs, true, dflt)]) =
      runJsonAblr [] {}
        (.vmodel [("inner", "inner", .vmodel ifs, true, dflt)]) ∧
    (∀ o : Options, model_narrow o =
      { include' := none, exclude := none, by_alias := true, exclude_unset := false,
        exclude_none := o.exclude_none, exclude_defaults := o.exclude_defaults,
        sqlalchemy_safe := o.sqlalchemy_safe, preserve_set := o.preserve_set }) := by
  refine ⟨?_, fun o => rfl⟩
  unfold runJsonAblr
  have hN : vsize (Value.vmodel [("inner", "inner", .vmodel ifs, true, dflt)]) =
      (vsize (Value.vmodel ifs) + vsize dflt + 3) + 1 := by
    simp [vsize, fsize]; omega
  rw [hN, encodeN_step_model _ _ _ _ _ _ (by rfl),
    encodeN_step_model _ _ _ _ _ _ (by rfl)]
  have hfields : pdFields ((ovArg none none).getD { include' := inc, exclude := exc }).include'
      ((ovArg none none).getD { include' := inc, exclude := exc }).exclude
      (pd_opts ((ovArg none none).getD { include' := inc, exclude := exc }))
      [("inner", "inner", .vmodel ifs, true, dflt)] =
      [(.vstr "inner", pdV (pd_opts { include' := inc, exclude := exc }) (.vmodel ifs))] := by
    simp only [ovArg, Option.getD_none, pdFields, pd_opts]
    simp [hinc, hexc]
  rw [hfields]
  have hfields2 : pdFields ((ovArg none none).getD ({} : Options)).include'
      ((ovArg none none).getD ({} : Options)).exclude
      (pd_opts ((ovArg none none).getD ({} : Options)))
      [("inner", "inner", .vmodel ifs, true, dflt)] =
      [(.vstr "inner", pdV (pd_opts ({} : Options)) (.vmodel ifs))] := by
    simp [ovArg, pdFields, pd_opts]
  rw [hfields2]
  rfl

theorem C1_amended_witness :
    runJsonAblr []
        { include' := some [Value.vstr "inner"], exclude := some [Value.vstr "other"] }
        (.vmodel [("inner", "inner",
          .vmodel [("x", "ax", .vint 1, true, .vnone)], true, .vnone)]) =
      runJsonAblr [] {}
        (.vmodel [("inner", "inner",
          .vmodel [("x", "ax", .vint 1, true, .vnone)], true, .vnone)]) ∧
    (∀ o : Options, model_narrow o =
      { include' := none, exclude := none, by_alias := true, exclude_unset := false,
        exclude_none := o.exclude_none, exclude_defaults := o.exclude_defaults,
        sqlalchemy_safe := o.sqlalchemy_safe, preserve_set := o.preserve_set }) :=
  C1_amended_flat_filters_level_local (some [Value.vstr "inner"])
    (some [Value.vstr "other"]) [("x", "ax", .vint 1, true, .vnone)] .vnone
    (by decide) (by decide)

theorem C6_amended_witness :
    Options.parse_obj ([] ++ ("bogus", OptVal.ob true) :: []) =
      Options.parse_obj ([] ++ []) ∧
    encode [] ([] ++ ("bogus", OptVal.ob true) :: []) (.vint 1) =
      encode [] ([] ++ []) (.vint 1) :=
  C6_amended_unknown_key_ignored "bogus" (.ob true) [] [] [] (.vint 1) (by decide)

end Jsonablr
